import Mathlib

/-!
A shallow embedding of the `json-data` Rust library (a JSON parser and
serializer whose strings are WTF-16: sequences of 16-bit code units that may
contain unpaired surrogates).

Modelling conventions:

* Input bytes are `List Nat` (each element a byte value).  The Rust
  `Reader` is a remaining-suffix cursor, so every reader primitive maps a
  byte list to `Except Error (result × remaining bytes)`.
* `JsonString` wraps a `wtf8::Wtf8Buf`.  A well-formed WTF-8 buffer is
  exactly a sequence of code points (values `< 0x110000`) in which a lead
  surrogate is never immediately followed by a trail surrogate (the crate's
  `push` concatenates such pairs into one supplementary code point).  We model
  the buffer as that code point sequence, `List Nat`; byte-wise equality and
  byte-lexicographic order of WTF-8 buffers coincide with list equality and
  lexicographic order of the code point sequences, because generalized UTF-8
  is an order-preserving, prefix-free encoding of code points.
* `f64` values are modelled by their 64-bit patterns as `Nat`.  The numeric
  operations the library uses are translated exactly: correctly rounded
  (nearest, ties to even) decimal-to-binary64 conversion for
  `str::parse::<f64>`, sign/exponent/mantissa field tests for `is_finite`,
  and value comparison (with `±0.0` equal and `NaN` unordered) for the
  derived `PartialEq`/`PartialOrd`.
* `BTreeMap<JsonString, Value>` is modelled as an association list kept
  strictly sorted by the derived key order (lexicographic on the WTF-8
  bytes, equivalently on the code point sequences); `insert` is sorted
  insertion that overwrites the value of an equal key.
* Recursion in the recursive-descent parser is expressed with an explicit
  fuel parameter.  Fuel only ever decreases along calls that either consume a
  byte or parse one list element (which consumes at least two bytes), so
  `3 * input length + 8` fuel is ample and the fuel-exhausted branch is
  unreachable; entry points use that bound.
-/

/-- The error enum of `src/error.rs`, one case per grammar violation. -/
inductive Error where
  | unexpectedEof
  | trailingData
  | invalidControlCharacter (b : Nat)
  | expectedDoubleQuote (b : Nat)
  | unexpectedEscape (b : Nat)
  | invalidHexChar (b : Nat)
  | invalidUtf8Char
  | unexpectedStartOfValue (b : Nat)
  | expectedNull
  | expectedTrue
  | expectedFalse
  | invalidDigit (b : Nat)
  | infiniteFloat
  | expectedLeftBracket (b : Nat)
  | expectedCommaOrRightBracket (b : Nat)
  | expectedLeftBrace (b : Nat)
  | expectedColon (b : Nat)
  | expectedCommaOrRightBrace (b : Nat)
deriving DecidableEq, Repr

/-- `Reader::read_byte`: pop one byte or fail with `UnexpectedEof`. -/
def readByte : List Nat → Except Error (Nat × List Nat)
  | [] => .error .unexpectedEof
  | b :: r => .ok (b, r)

/-- `Reader::peek_byte`: look at the next byte without consuming it. -/
def peekByte (bytes : List Nat) : Option Nat := bytes.head?

/-- `Reader::read_bytes::<N>`: take a fixed-size chunk or fail with
`UnexpectedEof` when fewer than `n` bytes remain. -/
def readBytesN (n : Nat) (bytes : List Nat) : Except Error (List Nat × List Nat) :=
  if bytes.length < n then .error .unexpectedEof
  else .ok (bytes.take n, bytes.drop n)

/-- JSON whitespace bytes: tab, newline, carriage return, space. -/
def isWsByte (b : Nat) : Prop := b = 9 ∨ b = 10 ∨ b = 13 ∨ b = 32

instance (b : Nat) : Decidable (isWsByte b) :=
  inferInstanceAs (Decidable (b = 9 ∨ b = 10 ∨ b = 13 ∨ b = 32))

/-- `Reader::skip_whitespace`: drop leading whitespace bytes. -/
def skipWhitespace : List Nat → List Nat
  | [] => []
  | b :: r => if isWsByte b then skipWhitespace r else b :: r

/-- `Reader::read_all`: run a sub-parser on the whole input and require the
cursor to be exhausted afterwards, else `TrailingData`. -/
def readAll {α : Type} (f : List Nat → Except Error (α × List Nat))
    (bytes : List Nat) : Except Error α :=
  match f bytes with
  | .error e => .error e
  | .ok (v, rest) => if rest = [] then .ok v else .error .trailingData

/-- A UTF-8 continuation byte. -/
def isContByte (b : Nat) : Prop := 0x80 ≤ b ∧ b < 0xC0

instance (b : Nat) : Decidable (isContByte b) :=
  inferInstanceAs (Decidable (0x80 ≤ b ∧ b < 0xC0))

/-- UTF-8 encoding of one code point (what Rust's `write!("{c}")` emits for a
`char`); the serializer only applies it to Unicode scalar values. -/
def utf8Encode (c : Nat) : List Nat :=
  if c < 0x80 then [c]
  else if c < 0x800 then [0xC0 + c / 64, 0x80 + c % 64]
  else if c < 0x10000 then [0xE0 + c / 4096, 0x80 + c / 64 % 64, 0x80 + c % 64]
  else [0xF0 + c / 0x40000, 0x80 + c / 4096 % 64, 0x80 + c / 64 % 64, 0x80 + c % 64]

/-- The UTF-8 validation table of `core::str::from_utf8`, restricted to the
first character: decode the shortest valid prefix into a scalar value and its
byte length.  Overlong forms, surrogate encodings, values above `0x10FFFF`
and stray continuation bytes are rejected. -/
def decodeUtf8 : List Nat → Option (Nat × Nat)
  | [] => none
  | b0 :: rest =>
    if b0 < 0x80 then some (b0, 1)
    else if b0 < 0xC2 then none
    else if b0 < 0xE0 then
      match rest with
      | b1 :: _ =>
        if isContByte b1 then some ((b0 - 0xC0) * 64 + (b1 - 0x80), 2) else none
      | _ => none
    else if b0 < 0xF0 then
      match rest with
      | b1 :: b2 :: _ =>
        if (if b0 = 0xE0 then 0xA0 ≤ b1 ∧ b1 < 0xC0
            else if b0 = 0xED then 0x80 ≤ b1 ∧ b1 < 0xA0
            else isContByte b1) ∧ isContByte b2 then
          some ((b0 - 0xE0) * 4096 + (b1 - 0x80) * 64 + (b2 - 0x80), 3)
        else none
      | _ => none
    else if b0 < 0xF5 then
      match rest with
      | b1 :: b2 :: b3 :: _ =>
        if (if b0 = 0xF0 then 0x90 ≤ b1 ∧ b1 < 0xC0
            else if b0 = 0xF4 then 0x80 ≤ b1 ∧ b1 < 0x90
            else isContByte b1) ∧ isContByte b2 ∧ isContByte b3 then
          some ((b0 - 0xF0) * 0x40000 + (b1 - 0x80) * 4096 + (b2 - 0x80) * 64 + (b3 - 0x80), 4)
        else none
      | _ => none
    else none

/-- `Reader::read_char`: decode the next Unicode scalar value from the raw
bytes (trying prefixes of length 1–4, which is equivalent to decoding by the
first byte's class), failing `InvalidUtf8Char` when no prefix is valid. -/
def readChar (bytes : List Nat) : Except Error (Nat × List Nat) :=
  match bytes with
  | [] => .error .unexpectedEof
  | _ =>
    match decodeUtf8 bytes with
    | some (c, n) => .ok (c, bytes.drop n)
    | none => .error .invalidUtf8Char

/-- `parse_hex_byte` of `src/string.rs`. -/
def parseHexByte (b : Nat) : Except Error Nat :=
  if 0x30 ≤ b ∧ b ≤ 0x39 then .ok (b - 0x30)
  else if 0x61 ≤ b ∧ b ≤ 0x66 then .ok (b - 0x61 + 10)
  else if 0x41 ≤ b ∧ b ≤ 0x46 then .ok (b - 0x41 + 10)
  else .error (.invalidHexChar b)

/-- The fold inside `parse_hex_escape`: `r = r * 16 + digit` over the bytes. -/
def parseHexFold : List Nat → Nat → Except Error Nat
  | [], r => .ok r
  | b :: rest, r =>
    match parseHexByte b with
    | .ok d => parseHexFold rest (r * 16 + d)
    | .error e => .error e

/-- `parse_hex_escape` of `src/string.rs`: four hex digits to a 16-bit value. -/
def parseHexEscape (bytes : List Nat) : Except Error Nat := parseHexFold bytes 0

/-- Lead (high) surrogate code unit/point. -/
def isLead (c : Nat) : Prop := 0xD800 ≤ c ∧ c < 0xDC00

/-- Trail (low) surrogate code unit/point. -/
def isTrail (c : Nat) : Prop := 0xDC00 ≤ c ∧ c < 0xE000

/-- Any surrogate code unit/point. -/
def isSurr (c : Nat) : Prop := 0xD800 ≤ c ∧ c < 0xE000

instance (c : Nat) : Decidable (isLead c) :=
  inferInstanceAs (Decidable (0xD800 ≤ c ∧ c < 0xDC00))
instance (c : Nat) : Decidable (isTrail c) :=
  inferInstanceAs (Decidable (0xDC00 ≤ c ∧ c < 0xE000))
instance (c : Nat) : Decidable (isSurr c) :=
  inferInstanceAs (Decidable (0xD800 ≤ c ∧ c < 0xE000))

/-- `Wtf8Buf::push`: append a code point, except that a trail surrogate pushed
onto a buffer ending in a lead surrogate merges the pair into the encoded
supplementary code point. -/
def wtf8Push (l : List Nat) (c : Nat) : List Nat :=
  if isTrail c then
    match l.getLast? with
    | some p =>
      if isLead p then
        l.dropLast ++ [0x10000 + (p - 0xD800) * 0x400 + (c - 0xDC00)]
      else l ++ [c]
    | none => l ++ [c]
  else l ++ [c]

/-- Well-formedness of the code point sequence of a `Wtf8Buf`: every element
is a code point, and a lead surrogate is never immediately followed by a
trail surrogate (`push` would have merged such a pair). -/
def WfStr (l : List Nat) : Prop :=
  (∀ c ∈ l, c < 0x110000) ∧ List.Chain' (fun a b => ¬ (isLead a ∧ isTrail b)) l

/-- The adjacency half of `WfStr` as a structurally recursive predicate, for
computable decidability. -/
def noLeadTrail : List Nat → Prop
  | [] => True
  | [_] => True
  | a :: b :: r => ¬ (isLead a ∧ isTrail b) ∧ noLeadTrail (b :: r)

instance instDecNoLeadTrail : (l : List Nat) → Decidable (noLeadTrail l)
  | [] => inferInstanceAs (Decidable True)
  | [_] => inferInstanceAs (Decidable True)
  | a :: b :: r =>
    have : Decidable (noLeadTrail (b :: r)) := instDecNoLeadTrail (b :: r)
    inferInstanceAs (Decidable (¬ (isLead a ∧ isTrail b) ∧ noLeadTrail (b :: r)))

theorem noLeadTrail_iff : ∀ l : List Nat,
    noLeadTrail l ↔ List.Chain' (fun a b => ¬ (isLead a ∧ isTrail b)) l
  | [] => by simp [noLeadTrail]
  | [a] => by simp [noLeadTrail]
  | a :: b :: r => by
    rw [List.chain'_cons]
    unfold noLeadTrail
    rw [noLeadTrail_iff (b :: r)]

instance (l : List Nat) : Decidable (WfStr l) :=
  decidable_of_iff ((∀ c ∈ l, c < 0x110000) ∧ noLeadTrail l)
    (and_congr Iff.rfl (noLeadTrail_iff l))

/-- The loop of `read_string`, with explicit fuel; every iteration consumes at
least one byte, so fuel `length + 1` never runs out. -/
def stringLoopF : Nat → List Nat → List Nat → Except Error (List Nat × List Nat)
  | 0, _, _ => .error .unexpectedEof
  | fuel + 1, acc, bytes =>
    match bytes with
    | [] => .error .unexpectedEof
    | b :: r =>
      if b = 0x5C then
        match r with
        | [] => .error .unexpectedEof
        | e :: r2 =>
          if e = 0x22 then stringLoopF fuel (wtf8Push acc 0x22) r2
          else if e = 0x5C then stringLoopF fuel (wtf8Push acc 0x5C) r2
          else if e = 0x2F then stringLoopF fuel (wtf8Push acc 0x2F) r2
          else if e = 0x62 then stringLoopF fuel (wtf8Push acc 0x08) r2
          else if e = 0x66 then stringLoopF fuel (wtf8Push acc 0x0C) r2
          else if e = 0x6E then stringLoopF fuel (wtf8Push acc 0x0A) r2
          else if e = 0x72 then stringLoopF fuel (wtf8Push acc 0x0D) r2
          else if e = 0x74 then stringLoopF fuel (wtf8Push acc 0x09) r2
          else if e = 0x75 then
            match readBytesN 4 r2 with
            | .error er => .error er
            | .ok (hex, r3) =>
              match parseHexEscape hex with
              | .error er => .error er
              | .ok v => stringLoopF fuel (wtf8Push acc v) r3
          else .error (.unexpectedEscape e)
      else if b = 0x22 then .ok (acc, r)
      else if b < 0x20 then .error (.invalidControlCharacter b)
      else
        match readChar bytes with
        | .error er => .error er
        | .ok (c, r2) => stringLoopF fuel (acc ++ [c]) r2

/-- `read_string` of `src/string.rs`: an opening quote, then the loop over
escapes, the closing quote, and literal scalar values. -/
def readString (bytes : List Nat) : Except Error (List Nat × List Nat) :=
  match bytes with
  | [] => .error .unexpectedEof
  | b :: r =>
    if b = 0x22 then stringLoopF (r.length + 1) [] r
    else .error (.expectedDoubleQuote b)

/-- Lowercase hex digit byte for a value below 16. -/
def hexDigitByte (n : Nat) : Nat := if n < 10 then 0x30 + n else 0x57 + n

/-- The four lowercase hex digits of `write!("\u{:04x}", v)` for `v < 0x10000`. -/
def hex4 (v : Nat) : List Nat :=
  [hexDigitByte (v / 4096 % 16), hexDigitByte (v / 256 % 16),
   hexDigitByte (v / 16 % 16), hexDigitByte (v % 16)]

/-- The body of `Display for JsonString` for one code point: surrogates (no
`char`) become `\u` + hex; quote, backslash, slash and the five fixed
controls get two-byte escapes; other controls below `0x20` become `\u` + hex;
everything else is written literally in UTF-8. -/
def escCp (c : Nat) : List Nat :=
  if isSurr c then 0x5C :: 0x75 :: hex4 c
  else if c = 0x22 then [0x5C, 0x22]
  else if c = 0x5C then [0x5C, 0x5C]
  else if c = 0x2F then [0x5C, 0x2F]
  else if c = 0x08 then [0x5C, 0x62]
  else if c = 0x0C then [0x5C, 0x66]
  else if c = 0x0A then [0x5C, 0x6E]
  else if c = 0x0D then [0x5C, 0x72]
  else if c = 0x09 then [0x5C, 0x74]
  else if c < 0x20 then 0x5C :: 0x75 :: hex4 c
  else utf8Encode c

/-- `Display for JsonString`: a quote, each code point rendered by `escCp`,
and a closing quote. -/
def displayString (s : List Nat) : List Nat :=
  0x22 :: (s.map escCp).flatten ++ [0x22]

/-- `JsonString::from_json`. -/
def stringFromJson (bytes : List Nat) : Except Error (List Nat) :=
  readAll readString bytes

/-- `Wtf8Buf::into_string` behind `JsonString::into_string`: fails returning
the original buffer when any surrogate code point is present (in a well-formed
buffer every stored surrogate is unpaired), otherwise the buffer is valid
UTF-8 and is returned as the scalar value sequence of the `String`. -/
def intoString (s : List Nat) : Except (List Nat) (List Nat) :=
  if s.any (fun c => decide (isSurr c)) then .error s else .ok s

/-- `JsonString::to_ill_formed_utf16`: the UTF-16 code unit sequence; stored
surrogate code points are emitted as themselves, supplementary code points as
a surrogate pair. -/
def utf16Encode (l : List Nat) : List Nat :=
  (l.map fun c =>
    if c < 0x10000 then [c]
    else [0xD800 + (c - 0x10000) / 0x400, 0xDC00 + (c - 0x10000) % 0x400]).flatten

/-- A 16-bit code unit sequence contains a lone surrogate: a lead not followed
by a trail, or a trail not preceded by a lead. -/
def hasLoneSurrogate : List Nat → Bool
  | [] => false
  | [u] => decide (isSurr u)
  | u :: u2 :: rest =>
    if isLead u then
      if isTrail u2 then hasLoneSurrogate rest else true
    else if isTrail u then true
    else hasLoneSurrogate (u2 :: rest)

/-- A decimal digit byte. -/
def isDigitByte (b : Nat) : Prop := 0x30 ≤ b ∧ b ≤ 0x39

instance (b : Nat) : Decidable (isDigitByte b) :=
  inferInstanceAs (Decidable (0x30 ≤ b ∧ b ≤ 0x39))

/-- `skip_digits` of `src/number.rs`: consume a run of digits, reporting
whether at least one digit was found. -/
def skipDigits : List Nat → Bool × List Nat
  | [] => (false, [])
  | b :: r =>
    if isDigitByte b then
      let (_, r2) := skipDigits r
      (true, r2)
    else (false, b :: r)

/-- `skip_number` of `src/number.rs`: the RFC 8259 number grammar as a pure
lexical scan, returning the remaining bytes.  The source tests
`peek_byte() == Some(b)` for the sign, fraction and exponent positions. -/
def skipNumber (bytes : List Nat) : Except Error (List Nat) := do
  let bytes ←
    if peekByte bytes = some 0x2D then
      match readByte bytes with
      | .ok (_, r) => pure r
      | .error e => .error e
    else if bytes = [] then .error Error.unexpectedEof
    else pure bytes
  match readByte bytes with
  | .error e => .error e
  | .ok (b, r) => do
    let bytes ←
      if b = 0x30 then pure r
      else if isDigitByte b then pure (skipDigits r).2
      else .error (Error.invalidDigit b)
    let bytes ←
      if peekByte bytes = some 0x2E then
        match skipDigits bytes.tail with
        | (true, r3) => pure r3
        | (false, r3) =>
          match r3 with
          | [] => .error Error.unexpectedEof
          | b2 :: _ => .error (Error.invalidDigit b2)
      else pure bytes
    if peekByte bytes = some 0x65 ∨ peekByte bytes = some 0x45 then
      let r3 := bytes.tail
      let r3 := if peekByte r3 = some 0x2B ∨ peekByte r3 = some 0x2D then r3.tail else r3
      match skipDigits r3 with
      | (true, r4) => pure r4
      | (false, r4) =>
        match r4 with
        | [] => .error Error.unexpectedEof
        | b3 :: _ => .error (Error.invalidDigit b3)
    else pure bytes

/-- Take the leading run of digit bytes, returning it and the rest. -/
def splitDigits : List Nat → List Nat × List Nat
  | [] => ([], [])
  | b :: r =>
    if isDigitByte b then
      let (d, r2) := splitDigits r
      (b :: d, r2)
    else ([], b :: r)

/-- Numeric value of a digit byte run. -/
def digitsToNat (l : List Nat) : Nat := l.foldl (fun a b => a * 10 + (b - 0x30)) 0

/-- Bit length with explicit fuel (`n` itself is enough fuel, since the value
halves each step). -/
def bitLenAux : Nat → Nat → Nat
  | 0, _ => 0
  | f + 1, n => if n = 0 then 0 else 1 + bitLenAux f (n / 2)

/-- Number of bits of `n` (0 for 0). -/
def bitLen (n : Nat) : Nat := bitLenAux n n

/-- `⌊log₂ (num/den)⌋` for positive `num`, `den`: the bit-length difference is
off by at most one, fixed by a single comparison. -/
def floorLog2 (num den : Nat) : Int :=
  let g : Int := (bitLen num : Int) - (bitLen den : Int)
  if num * 2 ^ (max 0 (-g)).toNat ≥ den * 2 ^ (max 0 g).toNat then g else g - 1

/-- Correctly rounded (nearest, ties to even) conversion of the decimal value
`(-1)^neg · D · 10^E` to an IEEE 754 binary64 bit pattern, the semantics of
Rust's `str::parse::<f64>` on a JSON number lexeme.  Overflow produces the
infinity bit pattern, underflow subnormals or a signed zero. -/
def roundBits (neg : Bool) (D : Nat) (E : Int) : Nat :=
  let signBit : Nat := if neg then 2 ^ 63 else 0
  if D = 0 then signBit
  else
    let num := D * (if 0 ≤ E then 10 ^ E.toNat else 1)
    let den := if 0 ≤ E then 1 else 10 ^ (-E).toNat
    let L := floorLog2 num den
    let e : Int := max (-1074) (L - 52)
    let A := num * 2 ^ (max 0 (-e)).toNat
    let B := den * 2 ^ (max 0 e).toNat
    let q := A / B
    let r := A % B
    let n := if 2 * r < B then q else if B < 2 * r then q + 1
             else if q % 2 = 0 then q else q + 1
    let (e, n) := if n = 2 ^ 53 then (e + 1, (2 ^ 52 : Nat)) else (e, n)
    let bits := (e + 1074).toNat * 2 ^ 52 + n
    if 2047 * 2 ^ 52 ≤ bits then signBit + 2047 * 2 ^ 52 else signBit + bits

/-- `str::parse::<f64>` applied to a JSON number lexeme: read the sign,
integer digits, optional fraction and optional exponent, then round the exact
decimal value to binary64. -/
def parseLex (lex : List Nat) : Nat :=
  let (neg, l1) :=
    match lex with
    | 0x2D :: r => (true, r)
    | l => (false, l)
  let (ids, l2) := splitDigits l1
  let (fds, l3) :=
    match l2 with
    | 0x2E :: r => splitDigits r
    | _ => ([], l2)
  let edigs : Bool × List Nat :=
    match l3 with
    | 0x65 :: r | 0x45 :: r =>
      match r with
      | 0x2D :: r2 => (true, (splitDigits r2).1)
      | 0x2B :: r2 => (false, (splitDigits r2).1)
      | _ => (false, (splitDigits r).1)
    | _ => (false, [])
  let ev : Int := if edigs.1 then -(digitsToNat edigs.2 : Int) else (digitsToNat edigs.2 : Int)
  roundBits neg (digitsToNat (ids ++ fds)) (ev - fds.length)

/-- Exponent field of a binary64 bit pattern. -/
def expField (bits : Nat) : Nat := bits / 2 ^ 52 % 2 ^ 11

/-- Mantissa field of a binary64 bit pattern. -/
def mantField (bits : Nat) : Nat := bits % 2 ^ 52

/-- `f64::is_finite`: the exponent field is not all ones. -/
def isFiniteBits (bits : Nat) : Prop := expField bits ≠ 2047

instance (bits : Nat) : Decidable (isFiniteBits bits) :=
  inferInstanceAs (Decidable (expField bits ≠ 2047))

/-- NaN bit patterns: exponent all ones with a nonzero mantissa. -/
def isNaNBits (bits : Nat) : Prop := expField bits = 2047 ∧ mantField bits ≠ 0

instance (bits : Nat) : Decidable (isNaNBits bits) :=
  inferInstanceAs (Decidable (expField bits = 2047 ∧ mantField bits ≠ 0))

/-- `read_number` of `src/number.rs`: lex the literal with `skip_number`,
convert the captured lexeme with `str::parse::<f64>`, and reject a non-finite
result with `InfiniteFloat`. -/
def readNumber (bytes : List Nat) : Except Error (Nat × List Nat) :=
  match skipNumber bytes with
  | .error e => .error e
  | .ok rest =>
    let lex := bytes.take (bytes.length - rest.length)
    let bits := parseLex lex
    if isFiniteBits bits then .ok (bits, rest) else .error .infiniteFloat

/-- `Number::from_json`. -/
def numberFromJson (bytes : List Nat) : Except Error Nat :=
  readAll readNumber bytes

/-- `TryFrom<f64> for Number`: accept exactly the finite bit patterns. -/
def numberTryFromF64 (bits : Nat) : Except Unit Nat :=
  if isFiniteBits bits then .ok bits else .error ()

/-- Exact widening of an IEEE 754 binary32 bit pattern to binary64
(`f64::from(f32)`); every finite binary32 value is a binary64 value, so the
rounding in `roundBits` is exact here. -/
def widenF32 (bits32 : Nat) : Nat :=
  let s : Nat := bits32 / 2 ^ 31 % 2
  let e8 : Nat := bits32 / 2 ^ 23 % 2 ^ 8
  let m : Nat := bits32 % 2 ^ 23
  if e8 = 255 then s * 2 ^ 63 + 2047 * 2 ^ 52 + m * 2 ^ 29
  else
    let M := if e8 = 0 then m else 2 ^ 23 + m
    let g : Int := if e8 = 0 then -149 else (e8 : Int) - 150
    if 0 ≤ g then roundBits (s = 1) (M * 2 ^ g.toNat) 0
    else roundBits (s = 1) (M * 5 ^ (-g).toNat) g

/-- `TryFrom<f32> for Number`: widen to `f64`, then the `f64` check. -/
def numberTryFromF32 (bits32 : Nat) : Except Unit Nat :=
  numberTryFromF64 (widenF32 bits32)

/-- The signed integer key `value · 2^1074` of a non-NaN binary64 bit
pattern, with both zeros mapping to 0 and infinities beyond every finite
key; comparing keys is IEEE numeric comparison. -/
def f64SignedKey (bits : Nat) : Int :=
  let mag : Int :=
    if expField bits = 2047 then 2 ^ 4000
    else if expField bits = 0 then (mantField bits : Int)
    else (2 ^ 52 + mantField bits : Nat) * 2 ^ (expField bits - 1)
  if bits / 2 ^ 63 % 2 = 1 then -mag else mag

/-- `f64::partial_cmp` (behind the derived `PartialOrd` of `Number`): `none`
iff an operand is NaN, otherwise numeric comparison (so `+0.0` and `-0.0`
compare equal). -/
def f64CompareOpt (b1 b2 : Nat) : Option Ordering :=
  if isNaNBits b1 ∨ isNaNBits b2 then none
  else some (compare (f64SignedKey b1) (f64SignedKey b2))

/-- `f64 ==` (behind the derived `PartialEq` of `Number`): numeric equality,
false when an operand is NaN. -/
def f64Eq (b1 b2 : Nat) : Prop := f64CompareOpt b1 b2 = some .eq

instance (b1 b2 : Nat) : Decidable (f64Eq b1 b2) :=
  inferInstanceAs (Decidable (f64CompareOpt b1 b2 = some .eq))

/-- `Hash for Number` feeds `self.inner.to_bits()` to the hasher: the hashed
data is the raw bit pattern itself. -/
def numberHashInput (bits : Nat) : Nat := bits

/-- The `Value` enum of `src/lib.rs`: six cases.  `Array` wraps its `Vec` and
`Object` wraps its `BTreeMap`; both are carried inline here, the map as its
sorted entry list. -/
inductive Value where
  | null
  | boolean (b : Bool)
  | number (bits : Nat)
  | string (s : List Nat)
  | array (elems : List Value)
  | object (entries : List (List Nat × Value))

/-- The derived lexicographic strict order on code point sequences, which
coincides with the byte-lexicographic order of their WTF-8 encodings (the
derived `Ord` of `JsonString` over `Wtf8Buf`). -/
def lexLt : List Nat → List Nat → Prop
  | [], [] => False
  | _ :: _, [] => False
  | [], _ :: _ => True
  | a :: as_, b :: bs => a < b ∨ (a = b ∧ lexLt as_ bs)

instance instDecLexLt : (k1 k2 : List Nat) → Decidable (lexLt k1 k2)
  | [], [] => isFalse fun h => h
  | _ :: _, [] => isFalse fun h => h
  | [], _ :: _ => isTrue trivial
  | a :: as_, b :: bs =>
    have : Decidable (lexLt as_ bs) := instDecLexLt as_ bs
    inferInstanceAs (Decidable (a < b ∨ (a = b ∧ lexLt as_ bs)))

/-- `BTreeMap::insert` on the sorted entry list: place the new entry at its
ordered position, overwriting the value of an equal key. -/
def sortedInsert (k : List Nat) (v : Value) :
    List (List Nat × Value) → List (List Nat × Value)
  | [] => [(k, v)]
  | (k2, v2) :: rest =>
    if lexLt k k2 then (k, v) :: (k2, v2) :: rest
    else if k = k2 then (k, v) :: rest
    else (k2, v2) :: sortedInsert k v rest

mutual

/-- `read_value` of `src/lib.rs` with explicit fuel: skip whitespace,
dispatch on the next byte, and skip trailing whitespace. -/
def readValueF : Nat → List Nat → Except Error (Value × List Nat)
  | 0, _ => .error .unexpectedEof
  | fuel + 1, bytes0 =>
    let bytes := skipWhitespace bytes0
    match peekByte bytes with
    | none => .error .unexpectedEof
    | some b =>
      let core : Except Error (Value × List Nat) :=
        if b = 0x6E then
          match readBytesN 4 bytes with
          | .error e => .error e
          | .ok (chunk, rest) =>
            if chunk = [0x6E, 0x75, 0x6C, 0x6C] then .ok (.null, rest)
            else .error .expectedNull
        else if b = 0x66 then
          match readBytesN 5 bytes with
          | .error e => .error e
          | .ok (chunk, rest) =>
            if chunk = [0x66, 0x61, 0x6C, 0x73, 0x65] then .ok (.boolean false, rest)
            else .error .expectedFalse
        else if b = 0x74 then
          match readBytesN 4 bytes with
          | .error e => .error e
          | .ok (chunk, rest) =>
            if chunk = [0x74, 0x72, 0x75, 0x65] then .ok (.boolean true, rest)
            else .error .expectedTrue
        else if b = 0x2D ∨ isDigitByte b then
          match readNumber bytes with
          | .error e => .error e
          | .ok (bits, rest) => .ok (.number bits, rest)
        else if b = 0x22 then
          match readString bytes with
          | .error e => .error e
          | .ok (s, rest) => .ok (.string s, rest)
        else if b = 0x5B then
          match readArrayF fuel bytes with
          | .error e => .error e
          | .ok (es, rest) => .ok (.array es, rest)
        else if b = 0x7B then
          match readObjectF fuel bytes with
          | .error e => .error e
          | .ok (kvs, rest) => .ok (.object kvs, rest)
        else .error (.unexpectedStartOfValue b)
      match core with
      | .error e => .error e
      | .ok (v, rest) => .ok (v, skipWhitespace rest)

/-- `read_array` of `src/array.rs`: `[`, optional immediate `]`, else the
element loop. -/
def readArrayF : Nat → List Nat → Except Error (List Value × List Nat)
  | 0, _ => .error .unexpectedEof
  | fuel + 1, bytes =>
    match readByte bytes with
    | .error e => .error e
    | .ok (b, r) =>
      if b = 0x5B then
        let r := skipWhitespace r
        if peekByte r = some 0x5D then .ok ([], r.tail)
        else readArrayItemsF fuel [] r
      else .error (.expectedLeftBracket b)

/-- The element loop of `read_array`: parse one value, then require `,`
(continue) or `]` (stop). -/
def readArrayItemsF : Nat → List Value → List Nat → Except Error (List Value × List Nat)
  | 0, _, _ => .error .unexpectedEof
  | fuel + 1, acc, bytes =>
    match readValueF fuel bytes with
    | .error e => .error e
    | .ok (v, r) =>
      match readByte r with
      | .error e => .error e
      | .ok (b, r2) =>
        if b = 0x5D then .ok (acc ++ [v], r2)
        else if b = 0x2C then readArrayItemsF fuel (acc ++ [v]) r2
        else .error (.expectedCommaOrRightBracket b)

/-- `read_object` of `src/object.rs`: `{`, optional immediate `}`, else the
member loop. -/
def readObjectF : Nat → List Nat → Except Error (List (List Nat × Value) × List Nat)
  | 0, _ => .error .unexpectedEof
  | fuel + 1, bytes =>
    match readByte bytes with
    | .error e => .error e
    | .ok (b, r) =>
      if b = 0x7B then
        let r := skipWhitespace r
        if peekByte r = some 0x7D then .ok ([], r.tail)
        else readObjectItemsF fuel [] r
      else .error (.expectedLeftBrace b)

/-- The member loop of `read_object`: key string, `:`, value, insert with
last-wins overwrite, then `,` (continue) or `}` (stop). -/
def readObjectItemsF : Nat → List (List Nat × Value) → List Nat →
    Except Error (List (List Nat × Value) × List Nat)
  | 0, _, _ => .error .unexpectedEof
  | fuel + 1, acc, bytes =>
    match readString bytes with
    | .error e => .error e
    | .ok (k, r) =>
      let r := skipWhitespace r
      match readByte r with
      | .error e => .error e
      | .ok (b, r2) =>
        if b = 0x3A then
          match readValueF fuel r2 with
          | .error e => .error e
          | .ok (v, r3) =>
            let acc2 := sortedInsert k v acc
            let r4 := skipWhitespace r3
            match readByte r4 with
            | .error e => .error e
            | .ok (b2, r5) =>
              if b2 = 0x2C then readObjectItemsF fuel acc2 (skipWhitespace r5)
              else if b2 = 0x7D then .ok (acc2, r5)
              else .error (.expectedCommaOrRightBrace b2)
        else .error (.expectedColon b)

end

/-- Ample fuel for a given input: every parser step consumes fuel once, and
within any parse at most three steps happen per input byte. -/
def fuelFor (bytes : List Nat) : Nat := 3 * bytes.length + 8

/-- `Value::from_json`. -/
def Value.fromJson (bytes : List Nat) : Except Error Value :=
  readAll (readValueF (fuelFor bytes)) bytes

/-- `Array::from_json`. -/
def arrayFromJson (bytes : List Nat) : Except Error (List Value) :=
  readAll (readArrayF (fuelFor bytes)) bytes

/-- `Object::from_json`. -/
def objectFromJson (bytes : List Nat) : Except Error (List (List Nat × Value)) :=
  readAll (readObjectF (fuelFor bytes)) bytes

mutual

/-- `Display for Value` as bytes, parameterized by `fmtF64`, the byte
rendering of `write!("{}", f64)` (Rust's shortest-round-trip float
formatting, which lives in the standard library, not in this repository).
Everything else is the literal serializer: `null`, `true`/`false`, strings
via `Display for JsonString`, arrays as `[`..`,`..`]`, objects as
`{`key`:`value`,`..`}` in stored (sorted) member order. -/
def serValue (fmtF64 : Nat → List Nat) : Value → List Nat
  | .null => [0x6E, 0x75, 0x6C, 0x6C]
  | .boolean true => [0x74, 0x72, 0x75, 0x65]
  | .boolean false => [0x66, 0x61, 0x6C, 0x73, 0x65]
  | .number bits => fmtF64 bits
  | .string s => displayString s
  | .array es => 0x5B :: serItems fmtF64 es ++ [0x5D]
  | .object kvs => 0x7B :: serMembers fmtF64 kvs ++ [0x7D]

/-- The comma-separated element texts of an array body. -/
def serItems (fmtF64 : Nat → List Nat) : List Value → List Nat
  | [] => []
  | [v] => serValue fmtF64 v
  | v :: w :: r => serValue fmtF64 v ++ 0x2C :: serItems fmtF64 (w :: r)

/-- The comma-separated `key:value` texts of an object body. -/
def serMembers (fmtF64 : Nat → List Nat) : List (List Nat × Value) → List Nat
  | [] => []
  | [(k, v)] => displayString k ++ 0x3A :: serValue fmtF64 v
  | (k, v) :: m :: r =>
    displayString k ++ 0x3A :: serValue fmtF64 v ++ 0x2C :: serMembers fmtF64 (m :: r)

end

/-- A Unicode scalar value: a code point that is not a surrogate. -/
def isScalar (c : Nat) : Prop := c < 0x110000 ∧ ¬ isSurr c

instance (c : Nat) : Decidable (isScalar c) :=
  inferInstanceAs (Decidable (c < 0x110000 ∧ ¬ isSurr c))

/-- The code point appended for each one-character escape byte. -/
def escByteValue (e : Nat) : Nat :=
  if e = 0x62 then 0x08 else if e = 0x66 then 0x0C else if e = 0x6E then 0x0A
  else if e = 0x72 then 0x0D else if e = 0x74 then 0x09 else e

/-- The byte after a serialized value inside a document: nothing (top level),
a comma, or a closing bracket/brace.  Such a byte is not whitespace and never
extends a number lexeme. -/
def okRest (rest : List Nat) : Prop :=
  rest = [] ∨ ∃ b t, rest = b :: t ∧ (b = 0x2C ∨ b = 0x5D ∨ b = 0x7D)

/-- Representable values: what the library itself constructs and guarantees.
Strings are well-formed WTF-8 buffers; numbers are finite and — since
the float formatter `fmtF64` is Rust standard library code outside this
repository — carry its documented contract at this value: the rendering is a
complete JSON number lexeme that `read_number` consumes exactly and
`str::parse::<f64>` converts back to the same bit pattern (Rust's `Display`
for `f64` prints the shortest decimal that round-trips); objects are sorted
with strictly ascending keys, as every `BTreeMap` is. -/
inductive ReprP (fmtF64 : Nat → List Nat) : Value → Prop where
  | null : ReprP fmtF64 .null
  | boolean (b : Bool) : ReprP fmtF64 (.boolean b)
  | number (bits : Nat) :
      isFiniteBits bits →
      (∀ rest, okRest rest → readNumber (fmtF64 bits ++ rest) = .ok (bits, rest)) →
      (∃ b t, fmtF64 bits = b :: t ∧ (b = 0x2D ∨ isDigitByte b)) →
      ReprP fmtF64 (.number bits)
  | string (s : List Nat) : WfStr s → ReprP fmtF64 (.string s)
  | array (es : List Value) : (∀ e ∈ es, ReprP fmtF64 e) → ReprP fmtF64 (.array es)
  | object (kvs : List (List Nat × Value)) :
      (∀ kv ∈ kvs, WfStr kv.1) →
      (∀ kv ∈ kvs, ReprP fmtF64 kv.2) →
      List.Pairwise (fun a b => lexLt a.1 b.1) kvs →
      ReprP fmtF64 (.object kvs)

/-- The per-scalar escaping rule worded as in the (amended) specification:
quote and backslash as two-character escapes, the forward slash likewise
escaped as backslash-slash, the five fixed control mappings, every other code
point below `0x20` and every unpaired surrogate code unit as `\u` plus four
lowercase hex digits, and every other scalar value emitted literally. -/
def escAmended (c : Nat) : List Nat :=
  if c = 0x22 then [0x5C, 0x22]
  else if c = 0x5C then [0x5C, 0x5C]
  else if c = 0x2F then [0x5C, 0x2F]
  else if c = 0x08 then [0x5C, 0x62]
  else if c = 0x0C then [0x5C, 0x66]
  else if c = 0x0A then [0x5C, 0x6E]
  else if c = 0x0D then [0x5C, 0x72]
  else if c = 0x09 then [0x5C, 0x74]
  else if c < 0x20 ∨ isSurr c then 0x5C :: 0x75 :: hex4 c
  else utf8Encode c

/-- A float formatter used to exhibit the round-trip theorem on a concrete
value: it renders every bit pattern as the single digit 1, which satisfies
the formatting contract at the bit pattern of `1.0`. -/
def fmtOne : Nat → List Nat := fun _ => [0x31]

/-- A concrete representable value exercising every constructor: an object
with an empty-string key, nested arrays and objects, an empty array and an
empty object, a string holding a lone lead surrogate, a number and a
boolean. -/
def sampleValue : Value :=
  .object [([], .array []),
           ([0x61], .array [.string [0xD800], .number 4607182418800017408, .object []]),
           ([0x62], .boolean true)]

/-- The document `{"":null,"𐀀":null}`: one key is U+E000,
the other the single supplementary code point U+10000 (the escaped surrogate
pair is concatenated by `Wtf8Buf::push`). -/
def c2input : List Nat :=
  [0x7B, 0x22, 0x5C, 0x75, 0x65, 0x30, 0x30, 0x30, 0x22, 0x3A, 0x6E, 0x75, 0x6C, 0x6C, 0x2C,
   0x22, 0x5C, 0x75, 0x64, 0x38, 0x30, 0x30, 0x5C, 0x75, 0x64, 0x63, 0x30, 0x30, 0x22, 0x3A,
   0x6E, 0x75, 0x6C, 0x6C, 0x7D]

theorem skipWhitespace_cons_of_not_ws {b : Nat} (h : ¬ isWsByte b) (r : List Nat) :
    skipWhitespace (b :: r) = b :: r := by
  unfold skipWhitespace; simp [h]

theorem skipWhitespace_nil : skipWhitespace [] = [] := rfl

theorem parseHexByte_hexDigitByte : ∀ d < 16, parseHexByte (hexDigitByte d) = .ok d := by
  intro d hd
  interval_cases d <;> rfl

theorem hexDigitByte_not_quote : ∀ d < 16, hexDigitByte d ≠ 0x22 ∧ hexDigitByte d ≠ 0x5C := by
  decide

theorem parseHexEscape_hex4 (v : Nat) (hv : v < 0x10000) :
    parseHexEscape (hex4 v) = .ok v := by
  have h1 : v / 4096 % 16 < 16 := Nat.mod_lt _ (by omega)
  have h2 : v / 256 % 16 < 16 := Nat.mod_lt _ (by omega)
  have h3 : v / 16 % 16 < 16 := Nat.mod_lt _ (by omega)
  have h4 : v % 16 < 16 := Nat.mod_lt _ (by omega)
  unfold parseHexEscape hex4
  unfold parseHexFold
  rw [parseHexByte_hexDigitByte _ h1]
  unfold parseHexFold
  rw [parseHexByte_hexDigitByte _ h2]
  unfold parseHexFold
  rw [parseHexByte_hexDigitByte _ h3]
  unfold parseHexFold
  rw [parseHexByte_hexDigitByte _ h4]
  unfold parseHexFold
  congr 1
  omega

set_option maxRecDepth 8000 in
theorem decodeUtf8_encode (c : Nat) (hc : isScalar c) (rest : List Nat) :
    decodeUtf8 (utf8Encode c ++ rest) = some (c, (utf8Encode c).length) := by
  obtain ⟨hlt, hsur⟩ := hc
  unfold isSurr at hsur
  unfold utf8Encode
  by_cases h1 : c < 0x80
  · simp only [if_pos h1]
    unfold decodeUtf8
    simp only [List.cons_append]
    rw [if_pos h1]
    simp
  · by_cases h2 : c < 0x800
    · simp only [if_neg h1, if_pos h2]
      unfold decodeUtf8
      simp only [List.cons_append]
      have e1 : ¬ (0xC0 + c / 64 < 0x80) := by omega
      have e2 : ¬ (0xC0 + c / 64 < 0xC2) := by omega
      have e3 : 0xC0 + c / 64 < 0xE0 := by omega
      rw [if_neg e1, if_neg e2, if_pos e3]
      have e4 : isContByte (0x80 + c % 64) := by unfold isContByte; omega
      rw [if_pos e4]
      simp only [List.length_cons, List.length_nil]
      congr 2
      omega
    · by_cases h3 : c < 0x10000
      · simp only [if_neg h1, if_neg h2, if_pos h3]
        unfold decodeUtf8
        simp only [List.cons_append]
        have e1 : ¬ (0xE0 + c / 4096 < 0x80) := by omega
        have e2 : ¬ (0xE0 + c / 4096 < 0xC2) := by omega
        have e3 : ¬ (0xE0 + c / 4096 < 0xE0) := by omega
        have e4 : 0xE0 + c / 4096 < 0xF0 := by omega
        rw [if_neg e1, if_neg e2, if_neg e3, if_pos e4]
        have hb1 : (if 0xE0 + c / 4096 = 0xE0 then 0xA0 ≤ 0x80 + c / 64 % 64 ∧ 0x80 + c / 64 % 64 < 0xC0
            else if 0xE0 + c / 4096 = 0xED then 0x80 ≤ 0x80 + c / 64 % 64 ∧ 0x80 + c / 64 % 64 < 0xA0
            else isContByte (0x80 + c / 64 % 64)) := by
          by_cases hE0 : 0xE0 + c / 4096 = 0xE0
          · rw [if_pos hE0]
            omega
          · rw [if_neg hE0]
            by_cases hED : 0xE0 + c / 4096 = 0xED
            · rw [if_pos hED]
              omega
            · rw [if_neg hED]
              unfold isContByte
              omega
        have hb2 : isContByte (0x80 + c % 64) := by unfold isContByte; omega
        rw [if_pos ⟨hb1, hb2⟩]
        simp only [List.length_cons, List.length_nil]
        congr 2
        omega
      · simp only [if_neg h1, if_neg h2, if_neg h3]
        unfold decodeUtf8
        simp only [List.cons_append]
        have e1 : ¬ (0xF0 + c / 0x40000 < 0x80) := by omega
        have e2 : ¬ (0xF0 + c / 0x40000 < 0xC2) := by omega
        have e3 : ¬ (0xF0 + c / 0x40000 < 0xE0) := by omega
        have e4 : ¬ (0xF0 + c / 0x40000 < 0xF0) := by omega
        have e5 : 0xF0 + c / 0x40000 < 0xF5 := by omega
        rw [if_neg e1, if_neg e2, if_neg e3, if_neg e4, if_pos e5]
        have hb1 : (if 0xF0 + c / 0x40000 = 0xF0 then 0x90 ≤ 0x80 + c / 4096 % 64 ∧ 0x80 + c / 4096 % 64 < 0xC0
            else if 0xF0 + c / 0x40000 = 0xF4 then 0x80 ≤ 0x80 + c / 4096 % 64 ∧ 0x80 + c / 4096 % 64 < 0x90
            else isContByte (0x80 + c / 4096 % 64)) := by
          by_cases hF0 : 0xF0 + c / 0x40000 = 0xF0
          · rw [if_pos hF0]
            omega
          · rw [if_neg hF0]
            by_cases hF4 : 0xF0 + c / 0x40000 = 0xF4
            · rw [if_pos hF4]
              omega
            · rw [if_neg hF4]
              unfold isContByte
              omega
        have hb2 : isContByte (0x80 + c / 64 % 64) := by unfold isContByte; omega
        have hb3 : isContByte (0x80 + c % 64) := by unfold isContByte; omega
        rw [if_pos ⟨hb1, hb2, hb3⟩]
        simp only [List.length_cons, List.length_nil]
        congr 2
        omega

theorem readChar_encode (c : Nat) (hc : isScalar c) (rest : List Nat) :
    readChar (utf8Encode c ++ rest) = .ok (c, rest) := by
  have hne : utf8Encode c ≠ [] := by
    unfold utf8Encode
    split <;> simp_all
    split <;> simp_all
    split <;> simp_all
  unfold readChar
  match henc : utf8Encode c ++ rest with
  | [] =>
    exact absurd henc (by simp [hne])
  | b :: r =>
    rw [← henc, decodeUtf8_encode c hc rest]
    simp only [List.drop_left]
    rw [henc]

theorem wtf8Push_eq_append {acc : List Nat} {c : Nat}
    (h : ∀ p, acc.getLast? = some p → ¬ (isLead p ∧ isTrail c)) :
    wtf8Push acc c = acc ++ [c] := by
  unfold wtf8Push
  by_cases ht : isTrail c
  · rw [if_pos ht]
    match hl : acc.getLast? with
    | none => rfl
    | some p =>
      have hlp : ¬ isLead p := fun hlead => h p hl ⟨hlead, ht⟩
      simp [hlp]
  · rw [if_neg ht]

theorem utf8Encode_ne_nil (c : Nat) : utf8Encode c ≠ [] := by
  unfold utf8Encode
  split_ifs <;> simp

theorem escCp_ne_nil (c : Nat) : escCp c ≠ [] := by
  unfold escCp
  split_ifs <;> simp [utf8Encode_ne_nil]

theorem length_le_flatten_escCp (s : List Nat) :
    s.length ≤ ((s.map escCp).flatten).length := by
  induction s with
  | nil => simp
  | cons c r ih =>
    simp only [List.map_cons, List.flatten_cons, List.length_append, List.length_cons]
    have : 1 ≤ (escCp c).length := by
      cases h : escCp c with
      | nil => exact absurd h (escCp_ne_nil c)
      | cons a b => simp
    omega

theorem stringLoopF_step (c : Nat) (hlt : c < 0x110000) (fuel : Nat) (acc t : List Nat)
    (hb : ∀ p, acc.getLast? = some p → ¬ (isLead p ∧ isTrail c)) :
    stringLoopF (fuel + 1) acc (escCp c ++ t) = stringLoopF fuel (acc ++ [c]) t := by
  have hpush : wtf8Push acc c = acc ++ [c] := wtf8Push_eq_append hb
  have hhex : ∀ (hc16 : c < 0x10000),
      stringLoopF (fuel + 1) acc ((0x5C :: 0x75 :: hex4 c) ++ t) =
        stringLoopF fuel (acc ++ [c]) t := by
    intro hc16
    show stringLoopF (fuel + 1) acc (0x5C :: 0x75 :: (hex4 c ++ t)) = _
    simp only [stringLoopF]
    norm_num
    rw [show readBytesN 4 (hex4 c ++ t) = .ok (hex4 c, t) by
      unfold readBytesN hex4; simp]
    simp only [parseHexEscape_hex4 c hc16, hpush]
  have hesc : ∀ e : Nat, e = 0x22 ∨ e = 0x5C ∨ e = 0x2F ∨ e = 0x62 ∨ e = 0x66 ∨
      e = 0x6E ∨ e = 0x72 ∨ e = 0x74 →
      stringLoopF (fuel + 1) acc (0x5C :: e :: t) =
        stringLoopF fuel (wtf8Push acc (escByteValue e)) t := by
    intro e he
    rcases he with h | h | h | h | h | h | h | h <;>
      (subst h; simp only [stringLoopF, escByteValue]; norm_num)
  unfold escCp
  by_cases hs : isSurr c
  · rw [if_pos hs]
    exact hhex (by unfold isSurr at hs; omega)
  · rw [if_neg hs]
    by_cases h22 : c = 0x22
    · subst h22; rw [if_pos rfl]
      rw [show ([0x5C, 0x22] : List Nat) ++ t = 0x5C :: (0x22 : Nat) :: t from rfl]
      rw [hesc 0x22 (by norm_num)]
      rw [show escByteValue 0x22 = 0x22 from rfl, hpush]
    · rw [if_neg h22]
      by_cases h5c : c = 0x5C
      · subst h5c; rw [if_pos rfl]
        rw [show ([0x5C, 0x5C] : List Nat) ++ t = 0x5C :: (0x5C : Nat) :: t from rfl]
        rw [hesc 0x5C (by norm_num)]
        rw [show escByteValue 0x5C = 0x5C from rfl, hpush]
      · rw [if_neg h5c]
        by_cases h2f : c = 0x2F
        · subst h2f; rw [if_pos rfl]
          rw [show ([0x5C, 0x2F] : List Nat) ++ t = 0x5C :: (0x2F : Nat) :: t from rfl]
          rw [hesc 0x2F (by norm_num)]
          rw [show escByteValue 0x2F = 0x2F from rfl, hpush]
        · rw [if_neg h2f]
          by_cases h08 : c = 0x08
          · subst h08; rw [if_pos rfl]
            rw [show ([0x5C, 0x62] : List Nat) ++ t = 0x5C :: (0x62 : Nat) :: t from rfl]
            rw [hesc 0x62 (by norm_num)]
            rw [show escByteValue 0x62 = 0x08 from rfl, hpush]
          · rw [if_neg h08]
            by_cases h0c : c = 0x0C
            · subst h0c; rw [if_pos rfl]
              rw [show ([0x5C, 0x66] : List Nat) ++ t = 0x5C :: (0x66 : Nat) :: t from rfl]
              rw [hesc 0x66 (by norm_num)]
              rw [show escByteValue 0x66 = 0x0C from rfl, hpush]
            · rw [if_neg h0c]
              by_cases h0a : c = 0x0A
              · subst h0a; rw [if_pos rfl]
                rw [show ([0x5C, 0x6E] : List Nat) ++ t = 0x5C :: (0x6E : Nat) :: t from rfl]
                rw [hesc 0x6E (by norm_num)]
                rw [show escByteValue 0x6E = 0x0A from rfl, hpush]
              · rw [if_neg h0a]
                by_cases h0d : c = 0x0D
                · subst h0d; rw [if_pos rfl]
                  rw [show ([0x5C, 0x72] : List Nat) ++ t = 0x5C :: (0x72 : Nat) :: t from rfl]
                  rw [hesc 0x72 (by norm_num)]
                  rw [show escByteValue 0x72 = 0x0D from rfl, hpush]
                · rw [if_neg h0d]
                  by_cases h09 : c = 0x09
                  · subst h09; rw [if_pos rfl]
                    rw [show ([0x5C, 0x74] : List Nat) ++ t = 0x5C :: (0x74 : Nat) :: t from rfl]
                    rw [hesc 0x74 (by norm_num)]
                    rw [show escByteValue 0x74 = 0x09 from rfl, hpush]
                  · rw [if_neg h09]
                    by_cases hctl : c < 0x20
                    · rw [if_pos hctl]
                      exact hhex (by omega)
                    · rw [if_neg hctl]
                      have hscalar : isScalar c := ⟨hlt, hs⟩
                      have hrc := readChar_encode c hscalar t
                      obtain ⟨b, r, hbr, hb1, hb2, hb3⟩ :
                          ∃ b r, utf8Encode c = b :: r ∧ b ≠ 0x5C ∧ b ≠ 0x22 ∧ ¬ b < 0x20 := by
                        unfold utf8Encode
                        split_ifs with u1 u2 u3
                        · exact ⟨c, [], rfl, h5c, h22, hctl⟩
                        · exact ⟨_, _, rfl, by omega, by omega, by omega⟩
                        · exact ⟨_, _, rfl, by omega, by omega, by omega⟩
                        · exact ⟨_, _, rfl, by omega, by omega, by omega⟩
                      rw [hbr]
                      rw [hbr] at hrc
                      show stringLoopF (fuel + 1) acc (b :: (r ++ t)) = _
                      simp only [stringLoopF]
                      rw [if_neg hb1, if_neg hb2, if_neg hb3]
                      rw [show (b :: (r ++ t)) = (b :: r) ++ t by simp] at *
                      rw [hrc]

theorem wfStr_boundary {acc : List Nat} {c : Nat} {cps : List Nat}
    (h : WfStr (acc ++ c :: cps)) :
    ∀ p, acc.getLast? = some p → ¬ (isLead p ∧ isTrail c) := by
  intro p hp
  have hch := h.2
  rw [List.chain'_append] at hch
  have := hch.2.2 p hp c (by simp)
  exact this

theorem wfStr_shift {acc : List Nat} {c : Nat} {cps : List Nat}
    (h : WfStr (acc ++ c :: cps)) : WfStr ((acc ++ [c]) ++ cps) := by
  have : (acc ++ [c]) ++ cps = acc ++ c :: cps := by simp
  rw [this]
  exact h

theorem stringLoopF_ser (cps : List Nat) : ∀ acc t fuel,
    WfStr (acc ++ cps) → cps.length < fuel →
    stringLoopF fuel acc ((cps.map escCp).flatten ++ 0x22 :: t) = .ok (acc ++ cps, t) := by
  induction cps with
  | nil =>
    intro acc t fuel _ hfuel
    match fuel, hfuel with
    | f + 1, _ =>
      simp only [List.map_nil, List.flatten_nil, List.nil_append, List.append_nil]
      simp only [stringLoopF]
      norm_num
  | cons c cps ih =>
    intro acc t fuel hwf hfuel
    cases fuel with
    | zero => exact absurd hfuel (by simp)
    | succ f =>
      have hc : c < 0x110000 := hwf.1 c (by simp)
      simp only [List.map_cons, List.flatten_cons, List.append_assoc]
      rw [stringLoopF_step c hc f acc _ (wfStr_boundary hwf)]
      rw [ih (acc ++ [c]) t f (wfStr_shift hwf)
        (by simp only [List.length_cons] at hfuel; omega)]
      simp

theorem readString_ser (s t : List Nat) (h : WfStr s) :
    readString (displayString s ++ t) = .ok (s, t) := by
  unfold displayString readString
  simp only [List.cons_append, List.append_assoc, List.singleton_append]
  norm_num
  rw [stringLoopF_ser s [] t _ (by simpa using h)
    (by
      have h1 := length_le_flatten_escCp s
      simp only [List.length_flatten, List.map_map, List.length_append,
        List.length_cons] at h1 ⊢
      omega)]
  simp

theorem skipWhitespace_okRest {rest : List Nat} (h : okRest rest) :
    skipWhitespace rest = rest := by
  rcases h with h | ⟨b, t, rfl, hb⟩
  · simp [h, skipWhitespace]
  · apply skipWhitespace_cons_of_not_ws
    unfold isWsByte
    rcases hb with h | h | h <;> omega

theorem lexLt_irrefl : ∀ k : List Nat, ¬ lexLt k k
  | [] => fun h => h
  | a :: as_ => fun h => by
    unfold lexLt at h
    rcases h with h | ⟨_, h⟩
    · omega
    · exact lexLt_irrefl as_ h

theorem lexLt_asymm : ∀ k1 k2 : List Nat, lexLt k1 k2 → ¬ lexLt k2 k1
  | [], [], h => absurd h (fun h => h)
  | _ :: _, [], h => absurd h (fun h => h)
  | [], _ :: _, _ => fun h2 => h2
  | a :: as_, b :: bs, h => by
    unfold lexLt at h ⊢
    rcases h with h | ⟨rfl, h⟩
    · rintro (h2 | ⟨rfl, h2⟩) <;> omega
    · rintro (h2 | ⟨-, h2⟩)
      · omega
      · exact lexLt_asymm as_ bs h h2

theorem not_lexLt_nil : ∀ k : List Nat, ¬ lexLt k []
  | [] => fun h => h
  | _ :: _ => fun h => h

theorem lexLt_of_not_of_ne : ∀ k1 k2 : List Nat, ¬ lexLt k1 k2 → k1 ≠ k2 → lexLt k2 k1
  | [], [], _, hne => absurd rfl hne
  | _ :: _, [], _, _ => trivial
  | [], _ :: _, h, _ => absurd trivial h
  | a :: as_, b :: bs, h, hne => by
    unfold lexLt at h ⊢
    push_neg at h
    obtain ⟨h1, h2⟩ := h
    by_cases hab : a = b
    · subst hab
      right
      refine ⟨rfl, lexLt_of_not_of_ne as_ bs (h2 rfl) ?_⟩
      intro heq
      exact hne (by rw [heq])
    · left
      omega

theorem lexLt_trans : ∀ k1 k2 k3 : List Nat, lexLt k1 k2 → lexLt k2 k3 → lexLt k1 k3
  | _, k2, [], _, h2 => absurd h2 (not_lexLt_nil k2)
  | k1, [], _ :: _, h1, _ => absurd h1 (not_lexLt_nil k1)
  | [], _ :: _, _ :: _, _, _ => trivial
  | a :: as_, b :: bs, c :: cs, h1, h2 => by
    unfold lexLt at h1 h2 ⊢
    rcases h1 with h1 | ⟨rfl, h1⟩ <;> rcases h2 with h2 | ⟨rfl, h2⟩
    · left; omega
    · left; omega
    · left; omega
    · right; exact ⟨rfl, lexLt_trans as_ bs cs h1 h2⟩

theorem sortedInsert_append {key : List Nat} {v : Value} :
    ∀ acc : List (List Nat × Value), (∀ e ∈ acc, lexLt e.1 key) →
    sortedInsert key v acc = acc ++ [(key, v)]
  | [], _ => rfl
  | (k2, v2) :: rest, h => by
    have h2 : lexLt k2 key := h (k2, v2) (by simp)
    have hn1 : ¬ lexLt key k2 := lexLt_asymm _ _ h2
    have hn2 : key ≠ k2 := by
      rintro rfl
      exact lexLt_irrefl key h2
    unfold sortedInsert
    rw [if_neg hn1, if_neg hn2]
    rw [sortedInsert_append rest (fun e he => h e (by simp [he]))]
    simp

theorem mem_sortedInsert {key : List Nat} {v : Value} :
    ∀ (l : List (List Nat × Value)) (e : List Nat × Value),
      e ∈ sortedInsert key v l → e = (key, v) ∨ e ∈ l
  | [], e, he => by
    unfold sortedInsert at he
    simp at he
    exact Or.inl he
  | (k2, v2) :: rest, e, he => by
    unfold sortedInsert at he
    split_ifs at he with h1 h2
    · simp only [List.mem_cons] at he ⊢
      tauto
    · simp only [List.mem_cons] at he ⊢
      tauto
    · simp only [List.mem_cons] at he ⊢
      rcases he with he | he
      · tauto
      · rcases mem_sortedInsert rest e he with h | h <;> tauto

theorem pairwise_sortedInsert {key : List Nat} {v : Value} :
    ∀ l : List (List Nat × Value),
      List.Pairwise (fun a b => lexLt a.1 b.1) l →
      List.Pairwise (fun a b => lexLt a.1 b.1) (sortedInsert key v l)
  | [], _ => by
    unfold sortedInsert
    simp
  | (k2, v2) :: rest, h => by
    rw [List.pairwise_cons] at h
    obtain ⟨hhead, htail⟩ := h
    unfold sortedInsert
    split_ifs with h1 h2
    · rw [List.pairwise_cons]
      constructor
      · intro e he
        simp only [List.mem_cons] at he
        rcases he with rfl | he
        · exact h1
        · exact lexLt_trans _ _ _ h1 (hhead e he)
      · rw [List.pairwise_cons]
        exact ⟨hhead, htail⟩
    · rw [List.pairwise_cons]
      refine ⟨fun e he => ?_, htail⟩
      rw [h2]
      exact hhead e he
    · rw [List.pairwise_cons]
      constructor
      · intro e he
        rcases mem_sortedInsert rest e he with rfl | he2
        · exact lexLt_of_not_of_ne _ _ h1 h2
        · exact hhead e he2
      · exact pairwise_sortedInsert rest htail

theorem serValue_head {fmtF64 : Nat → List Nat} {v : Value} (h : ReprP fmtF64 v) :
    ∃ b t, serValue fmtF64 v = b :: t ∧ ¬ isWsByte b ∧ b ≠ 0x5D ∧ b ≠ 0x7D := by
  cases h with
  | null => exact ⟨0x6E, _, rfl, by unfold isWsByte; omega, by omega, by omega⟩
  | boolean b =>
    cases b with
    | true => exact ⟨0x74, _, rfl, by unfold isWsByte; omega, by omega, by omega⟩
    | false => exact ⟨0x66, _, rfl, by unfold isWsByte; omega, by omega, by omega⟩
  | number bits hfin hread hhead =>
    obtain ⟨b, t, hbt, hb⟩ := hhead
    refine ⟨b, t, ?_, ?_, ?_, ?_⟩
    · show fmtF64 bits = b :: t
      exact hbt
    · unfold isWsByte
      unfold isDigitByte at hb
      omega
    · unfold isDigitByte at hb
      omega
    · unfold isDigitByte at hb
      omega
  | string s hs => exact ⟨0x22, _, rfl, by unfold isWsByte; omega, by omega, by omega⟩
  | array es hmem =>
    exact ⟨0x5B, _, rfl, by unfold isWsByte; omega, by omega, by omega⟩
  | object kvs h1 h2 h3 =>
    exact ⟨0x7B, _, rfl, by unfold isWsByte; omega, by omega, by omega⟩

theorem serValue_length_pos {fmtF64 : Nat → List Nat} {v : Value} (h : ReprP fmtF64 v) :
    1 ≤ (serValue fmtF64 v).length := by
  obtain ⟨b, t, hbt, -⟩ := serValue_head h
  rw [hbt]
  simp

theorem readBytesN_four (a b c d : Nat) (rest : List Nat) :
    readBytesN 4 (a :: b :: c :: d :: rest) = .ok ([a, b, c, d], rest) := by
  unfold readBytesN
  rw [if_neg (by simp)]
  rfl

theorem readBytesN_five (a b c d e : Nat) (rest : List Nat) :
    readBytesN 5 (a :: b :: c :: d :: e :: rest) = .ok ([a, b, c, d, e], rest) := by
  unfold readBytesN
  rw [if_neg (by simp)]
  rfl

theorem readArrayItemsF_ser {fmtF64 : Nat → List Nat} :
    ∀ es : List Value, es ≠ [] →
    (∀ e ∈ es, ∀ fuel rest, 2 * (serValue fmtF64 e).length < fuel → okRest rest →
      readValueF fuel (serValue fmtF64 e ++ rest) = .ok (e, rest)) →
    (∀ e ∈ es, ReprP fmtF64 e) →
    ∀ acc t fuel, 2 * (serItems fmtF64 es).length + 2 < fuel →
      readArrayItemsF fuel acc (serItems fmtF64 es ++ 0x5D :: t) = .ok (acc ++ es, t)
  | [], hne, _, _ => absurd rfl hne
  | [v], _, hval, hrep => by
    intro acc t fuel hfuel
    cases fuel with
    | zero => omega
    | succ f =>
      simp only [serItems] at hfuel ⊢
      simp only [readArrayItemsF]
      rw [hval v (by simp) f (0x5D :: t) (by omega)
        (Or.inr ⟨0x5D, t, rfl, by omega⟩)]
      simp only [readByte]
      norm_num
  | v :: w :: r, _, hval, hrep => by
    intro acc t fuel hfuel
    cases fuel with
    | zero => omega
    | succ f =>
      have hlenv : 1 ≤ (serValue fmtF64 v).length :=
        serValue_length_pos (hrep v (by simp))
      simp only [serItems] at hfuel ⊢
      simp only [List.append_assoc, List.cons_append]
      simp only [readArrayItemsF]
      rw [show serValue fmtF64 v ++ (0x2C :: (serItems fmtF64 (w :: r) ++ 0x5D :: t)) =
        serValue fmtF64 v ++ (0x2C :: serItems fmtF64 (w :: r) ++ 0x5D :: t) by simp]
      rw [hval v (by simp) f (0x2C :: serItems fmtF64 (w :: r) ++ 0x5D :: t)
        (by simp only [List.length_append, List.length_cons] at hfuel ⊢; omega)
        (Or.inr ⟨0x2C, serItems fmtF64 (w :: r) ++ 0x5D :: t, rfl, by omega⟩)]
      simp only [readByte]
      norm_num
      rw [readArrayItemsF_ser (w :: r) (by simp)
        (fun e he => hval e (by simp [he]))
        (fun e he => hrep e (by simp [he]))
        (acc ++ [v]) t f
        (by simp only [List.length_append, List.length_cons] at hfuel ⊢; omega)]
      simp

theorem displayString_length (s : List Nat) :
    (displayString s).length = ((s.map escCp).flatten).length + 2 := by
  simp [displayString]

theorem serMembers_head (fmtF64 : Nat → List Nat) (k2 : List Nat) (v2 : Value)
    (r2 : List (List Nat × Value)) :
    ∃ t2, serMembers fmtF64 ((k2, v2) :: r2) = 0x22 :: t2 := by
  cases r2 with
  | nil => exact ⟨_, rfl⟩
  | cons m2 r3 => exact ⟨_, rfl⟩

theorem readObjectItemsF_ser {fmtF64 : Nat → List Nat} :
    ∀ kvs : List (List Nat × Value), kvs ≠ [] →
    (∀ kv ∈ kvs, WfStr kv.1) →
    (∀ kv ∈ kvs, ∀ fuel rest, 2 * (serValue fmtF64 kv.2).length < fuel → okRest rest →
      readValueF fuel (serValue fmtF64 kv.2 ++ rest) = .ok (kv.2, rest)) →
    ∀ acc t fuel, List.Pairwise (fun a b => lexLt a.1 b.1) (acc ++ kvs) →
      2 * (serMembers fmtF64 kvs).length + 2 < fuel →
      readObjectItemsF fuel acc (serMembers fmtF64 kvs ++ 0x7D :: t) = .ok (acc ++ kvs, t)
  | [], hne, _, _ => absurd rfl hne
  | [(k, v)], _, hwf, hval => by
    intro acc t fuel hpw hfuel
    cases fuel with
    | zero => omega
    | succ f =>
      have hacc : ∀ e ∈ acc, lexLt e.1 k := by
        rw [List.pairwise_append] at hpw
        exact fun e he => hpw.2.2 e he (k, v) (by simp)
      simp only [serMembers] at hfuel ⊢
      have hfuel2 : 2 * ((displayString k).length + 1 + (serValue fmtF64 v).length) + 2
          < f + 1 := by
        simp only [List.length_append, List.length_cons] at hfuel
        omega
      have hv : readValueF f (serValue fmtF64 v ++ 0x7D :: t) = .ok (v, 0x7D :: t) := by
        refine hval (k, v) (by simp) f (0x7D :: t) ?_ (Or.inr ⟨0x7D, t, rfl, by omega⟩)
        show 2 * (serValue fmtF64 v).length < f
        omega
      simp only [List.append_assoc, List.cons_append]
      simp only [readObjectItemsF]
      rw [readString_ser k _ (hwf (k, v) (by simp))]
      simp only [skipWhitespace_cons_of_not_ws
        (show ¬ isWsByte 0x3A by unfold isWsByte; omega), readByte]
      norm_num
      rw [hv]
      simp only [skipWhitespace_cons_of_not_ws
        (show ¬ isWsByte 0x7D by unfold isWsByte; omega), readByte]
      norm_num
      rw [sortedInsert_append acc hacc]
  | (k, v) :: m :: r, _, hwf, hval => by
    intro acc t fuel hpw hfuel
    cases fuel with
    | zero => omega
    | succ f =>
      obtain ⟨m1, m2⟩ := m
      have hacc : ∀ e ∈ acc, lexLt e.1 k := by
        rw [List.pairwise_append] at hpw
        exact fun e he => hpw.2.2 e he (k, v) (by simp)
      simp only [serMembers] at hfuel ⊢
      have hfuel2 : 2 * ((displayString k).length + 1 + ((serValue fmtF64 v).length + 1
          + (serMembers fmtF64 ((m1, m2) :: r)).length)) + 2 < f + 1 := by
        simp only [List.length_append, List.length_cons] at hfuel
        omega
      have hv : readValueF f
          (serValue fmtF64 v ++ (0x2C :: serMembers fmtF64 ((m1, m2) :: r) ++ 0x7D :: t))
          = .ok (v, 0x2C :: serMembers fmtF64 ((m1, m2) :: r) ++ 0x7D :: t) := by
        refine hval (k, v) (by simp) f _ ?_
          (Or.inr ⟨0x2C, serMembers fmtF64 ((m1, m2) :: r) ++ 0x7D :: t, by simp, by omega⟩)
        show 2 * (serValue fmtF64 v).length < f
        omega
      have hskip : skipWhitespace (serMembers fmtF64 ((m1, m2) :: r) ++ 0x7D :: t)
          = serMembers fmtF64 ((m1, m2) :: r) ++ 0x7D :: t := by
        obtain ⟨t2, ht2⟩ := serMembers_head fmtF64 m1 m2 r
        rw [ht2]
        simp only [List.cons_append]
        exact skipWhitespace_cons_of_not_ws (by unfold isWsByte; omega) _
      simp only [List.append_assoc, List.cons_append]
      simp only [readObjectItemsF]
      rw [readString_ser k _ (hwf (k, v) (by simp))]
      simp only [skipWhitespace_cons_of_not_ws
        (show ¬ isWsByte 0x3A by unfold isWsByte; omega), readByte]
      norm_num
      rw [show serValue fmtF64 v ++ (0x2C :: (serMembers fmtF64 ((m1, m2) :: r) ++ 0x7D :: t))
        = serValue fmtF64 v ++ (0x2C :: serMembers fmtF64 ((m1, m2) :: r) ++ 0x7D :: t)
        by simp]
      rw [hv]
      simp only [List.cons_append,
        skipWhitespace_cons_of_not_ws (show ¬ isWsByte 0x2C by unfold isWsByte; omega)]
      norm_num
      rw [sortedInsert_append acc hacc, hskip]
      rw [readObjectItemsF_ser ((m1, m2) :: r) (by simp)
        (fun e he => hwf e (by simp [he]))
        (fun e he => hval e (by simp [he]))
        (acc ++ [(k, v)]) t f
        (by
          rw [show (acc ++ [(k, v)]) ++ (m1, m2) :: r
            = acc ++ ((k, v) :: (m1, m2) :: r) by simp]
          exact hpw)
        (by
          show 2 * (serMembers fmtF64 ((m1, m2) :: r)).length + 2 < f
          omega)]
      simp

theorem serItems_cons_eq (fmtF64 : Nat → List Nat) (v : Value) (es : List Value) :
    ∃ t2, serItems fmtF64 (v :: es) = serValue fmtF64 v ++ t2 := by
  cases es with
  | nil => exact ⟨[], by simp [serItems]⟩
  | cons w r => exact ⟨_, rfl⟩

theorem serMembers_cons_eq (fmtF64 : Nat → List Nat) (k : List Nat) (v : Value)
    (r : List (List Nat × Value)) :
    ∃ t2, serMembers fmtF64 ((k, v) :: r) = displayString k ++ t2 := by
  cases r with
  | nil => exact ⟨_, rfl⟩
  | cons m r2 =>
    obtain ⟨m1, m2⟩ := m
    exact ⟨0x3A :: (serValue fmtF64 v ++ 0x2C :: serMembers fmtF64 ((m1, m2) :: r2)),
      by simp [serMembers]⟩

theorem readValueF_ser {fmtF64 : Nat → List Nat} {v : Value} (h : ReprP fmtF64 v) :
    ∀ fuel rest, 2 * (serValue fmtF64 v).length < fuel → okRest rest →
      readValueF fuel (serValue fmtF64 v ++ rest) = .ok (v, rest) := by
  induction h with
  | null =>
    intro fuel rest hfuel hrest
    cases fuel with
    | zero => simp only [serValue, List.length_cons, List.length_nil] at hfuel; omega
    | succ f =>
      show readValueF (f + 1) (0x6E :: 0x75 :: 0x6C :: 0x6C :: rest) = _
      simp only [readValueF]
      rw [skipWhitespace_cons_of_not_ws (by unfold isWsByte; omega)]
      simp only [peekByte, List.head?]
      norm_num
      rw [readBytesN_four]
      norm_num
      rw [skipWhitespace_okRest hrest]
  | boolean b =>
    intro fuel rest hfuel hrest
    cases b with
    | true =>
      cases fuel with
      | zero => simp only [serValue, List.length_cons, List.length_nil] at hfuel; omega
      | succ f =>
        show readValueF (f + 1) (0x74 :: 0x72 :: 0x75 :: 0x65 :: rest) = _
        simp only [readValueF]
        rw [skipWhitespace_cons_of_not_ws (by unfold isWsByte; omega)]
        simp only [peekByte, List.head?]
        norm_num
        rw [readBytesN_four]
        norm_num
        rw [skipWhitespace_okRest hrest]
    | false =>
      cases fuel with
      | zero => simp only [serValue, List.length_cons, List.length_nil] at hfuel; omega
      | succ f =>
        show readValueF (f + 1) (0x66 :: 0x61 :: 0x6C :: 0x73 :: 0x65 :: rest) = _
        simp only [readValueF]
        rw [skipWhitespace_cons_of_not_ws (by unfold isWsByte; omega)]
        simp only [peekByte, List.head?]
        norm_num
        rw [readBytesN_five]
        norm_num
        rw [skipWhitespace_okRest hrest]
  | number bits hfin hread hhead =>
    intro fuel rest hfuel hrest
    obtain ⟨b0, t0, hbt, hb⟩ := hhead
    cases fuel with
    | zero =>
      rw [show serValue fmtF64 (.number bits) = fmtF64 bits from rfl, hbt] at hfuel
      simp only [List.length_cons] at hfuel
      omega
    | succ f =>
      have hnum := hread rest hrest
      have hskip0 : skipWhitespace (fmtF64 bits ++ rest) = fmtF64 bits ++ rest := by
        rw [hbt]
        simp only [List.cons_append]
        exact skipWhitespace_cons_of_not_ws
          (by unfold isWsByte; unfold isDigitByte at hb; omega) _
      have hpeek : peekByte (fmtF64 bits ++ rest) = some b0 := by
        rw [hbt]
        simp [peekByte]
      show readValueF (f + 1) (fmtF64 bits ++ rest) = _
      simp only [readValueF, hskip0, hpeek]
      rw [if_neg (by unfold isDigitByte at hb; omega),
          if_neg (by unfold isDigitByte at hb; omega),
          if_neg (by unfold isDigitByte at hb; omega),
          if_pos hb]
      simp only [hnum]
      rw [skipWhitespace_okRest hrest]
  | string s hs =>
    intro fuel rest hfuel hrest
    cases fuel with
    | zero => simp only [serValue, displayString, List.length_cons] at hfuel; omega
    | succ f =>
      have hstr := readString_ser s rest hs
      have hskip0 : skipWhitespace (displayString s ++ rest) = displayString s ++ rest := by
        unfold displayString
        simp only [List.cons_append, List.append_assoc]
        exact skipWhitespace_cons_of_not_ws (by unfold isWsByte; omega) _
      have hpeek : peekByte (displayString s ++ rest) = some 0x22 := by
        unfold displayString
        simp [peekByte]
      show readValueF (f + 1) (displayString s ++ rest) = _
      simp only [readValueF, hskip0, hpeek]
      norm_num [isDigitByte]
      simp only [hstr]
      rw [skipWhitespace_okRest hrest]
  | array es hmem ih =>
    intro fuel rest hfuel hrest
    cases fuel with
    | zero =>
      simp only [serValue, List.length_cons, List.length_append] at hfuel
      omega
    | succ f =>
      have harr : readArrayF f (0x5B :: (serItems fmtF64 es ++ 0x5D :: rest))
          = .ok (es, rest) := by
        simp only [serValue, List.length_cons, List.length_append,
          List.length_nil] at hfuel
        cases f with
        | zero => omega
        | succ f2 =>
          simp only [readArrayF, readByte]
          norm_num
          cases es with
          | nil =>
            simp only [serItems, List.nil_append]
            rw [skipWhitespace_cons_of_not_ws (by unfold isWsByte; omega)]
            simp [peekByte]
          | cons v es2 =>
            obtain ⟨hb0, ht0, hser, hws, h5D, h7D⟩ := serValue_head (hmem v (by simp))
            obtain ⟨t2, ht2⟩ := serItems_cons_eq fmtF64 v es2
            have hskip1 : skipWhitespace (serItems fmtF64 (v :: es2) ++ 0x5D :: rest)
                = serItems fmtF64 (v :: es2) ++ 0x5D :: rest := by
              rw [ht2, hser]
              simp only [List.cons_append, List.append_assoc]
              exact skipWhitespace_cons_of_not_ws hws _
            have hpeek1 : peekByte (serItems fmtF64 (v :: es2) ++ 0x5D :: rest)
                ≠ some 0x5D := by
              rw [ht2, hser]
              simp only [List.cons_append, peekByte, List.head?]
              intro hcon
              exact h5D (by injection hcon)
            rw [hskip1, if_neg hpeek1]
            have := readArrayItemsF_ser (v :: es2) (by simp) ih hmem [] rest f2
              (by
                have h1 : (serItems fmtF64 (v :: es2)).length + 2
                    = (serItems fmtF64 (v :: es2) ++ [0x5D]).length + 1 := by simp
                omega)
            simpa using this
      show readValueF (f + 1) ((0x5B :: serItems fmtF64 es ++ [0x5D]) ++ rest) = _
      rw [show (0x5B :: serItems fmtF64 es ++ [0x5D]) ++ rest
        = 0x5B :: (serItems fmtF64 es ++ 0x5D :: rest) by simp]
      simp only [readValueF]
      rw [skipWhitespace_cons_of_not_ws (by unfold isWsByte; omega)]
      simp only [peekByte, List.head?]
      norm_num [isDigitByte]
      simp only [harr]
      rw [skipWhitespace_okRest hrest]
  | object kvs hwf hmem hpw ih =>
    intro fuel rest hfuel hrest
    cases fuel with
    | zero =>
      simp only [serValue, List.length_cons, List.length_append] at hfuel
      omega
    | succ f =>
      have hobj : readObjectF f (0x7B :: (serMembers fmtF64 kvs ++ 0x7D :: rest))
          = .ok (kvs, rest) := by
        simp only [serValue, List.length_cons, List.length_append,
          List.length_nil] at hfuel
        cases f with
        | zero => omega
        | succ f2 =>
          simp only [readObjectF, readByte]
          norm_num
          cases kvs with
          | nil =>
            simp only [serMembers, List.nil_append]
            rw [skipWhitespace_cons_of_not_ws (by unfold isWsByte; omega)]
            simp [peekByte]
          | cons kv kvs2 =>
            obtain ⟨k0, v0⟩ := kv
            obtain ⟨t2, ht2⟩ := serMembers_cons_eq fmtF64 k0 v0 kvs2
            have hskip1 : skipWhitespace (serMembers fmtF64 ((k0, v0) :: kvs2) ++ 0x7D :: rest)
                = serMembers fmtF64 ((k0, v0) :: kvs2) ++ 0x7D :: rest := by
              rw [ht2]
              unfold displayString
              simp only [List.cons_append, List.append_assoc]
              exact skipWhitespace_cons_of_not_ws (by unfold isWsByte; omega) _
            have hpeek1 : peekByte (serMembers fmtF64 ((k0, v0) :: kvs2) ++ 0x7D :: rest)
                ≠ some 0x7D := by
              rw [ht2]
              unfold displayString
              simp only [List.cons_append, peekByte, List.head?]
              intro hcon
              have : (0x22 : Nat) = 0x7D := by injection hcon
              omega
            rw [hskip1, if_neg hpeek1]
            have := readObjectItemsF_ser ((k0, v0) :: kvs2) (by simp) hwf ih [] rest f2
              (by simpa using hpw)
              (by
                have h1 : (serMembers fmtF64 ((k0, v0) :: kvs2)).length + 2
                    = (serMembers fmtF64 ((k0, v0) :: kvs2) ++ [0x7D]).length + 1 := by simp
                omega)
            simpa using this
      show readValueF (f + 1) ((0x7B :: serMembers fmtF64 kvs ++ [0x7D]) ++ rest) = _
      rw [show (0x7B :: serMembers fmtF64 kvs ++ [0x7D]) ++ rest
        = 0x7B :: (serMembers fmtF64 kvs ++ 0x7D :: rest) by simp]
      simp only [readValueF]
      rw [skipWhitespace_cons_of_not_ws (by unfold isWsByte; omega)]
      simp only [peekByte, List.head?]
      norm_num [isDigitByte]
      simp only [hobj]
      rw [skipWhitespace_okRest hrest]

theorem valueFromJson_ser {fmtF64 : Nat → List Nat} {v : Value} (h : ReprP fmtF64 v) :
    Value.fromJson (serValue fmtF64 v) = .ok v := by
  unfold Value.fromJson readAll
  have h1 : 2 * (serValue fmtF64 v).length < fuelFor (serValue fmtF64 v) := by
    unfold fuelFor
    omega
  have h2 := readValueF_ser h (fuelFor (serValue fmtF64 v)) [] h1 (Or.inl rfl)
  rw [List.append_nil] at h2
  rw [h2]
  simp

theorem readObjectItemsF_sorted :
    ∀ (fuel : Nat) (acc : List (List Nat × Value)) (bytes : List Nat)
      (res : List (List Nat × Value)) (rest : List Nat),
    List.Pairwise (fun a b => lexLt a.1 b.1) acc →
    readObjectItemsF fuel acc bytes = .ok (res, rest) →
    List.Pairwise (fun a b => lexLt a.1 b.1) res
  | 0, acc, bytes, res, rest, hpw, heq => by simp [readObjectItemsF] at heq
  | fuel + 1, acc, bytes, res, rest, hpw, heq => by
    simp only [readObjectItemsF] at heq
    split at heq
    · exact absurd heq (by simp)
    · split at heq
      · exact absurd heq (by simp)
      · split at heq
        · split at heq
          · exact absurd heq (by simp)
          · split at heq
            · exact absurd heq (by simp)
            · split at heq
              · exact readObjectItemsF_sorted fuel _ _ res rest
                  (pairwise_sortedInsert _ hpw) heq
              · split at heq
                · simp only [Except.ok.injEq, Prod.mk.injEq] at heq
                  obtain ⟨rfl, -⟩ := heq
                  exact pairwise_sortedInsert _ hpw
                · exact absurd heq (by simp)
        · exact absurd heq (by simp)

theorem readObjectF_sorted {fuel : Nat} {bytes : List Nat}
    {res : List (List Nat × Value)} {rest : List Nat}
    (heq : readObjectF fuel bytes = .ok (res, rest)) :
    List.Pairwise (fun a b => lexLt a.1 b.1) res := by
  match fuel with
  | 0 => simp [readObjectF] at heq
  | fuel + 1 =>
    simp only [readObjectF] at heq
    split at heq
    · exact absurd heq (by simp)
    · split at heq
      · split at heq
        · simp only [Except.ok.injEq, Prod.mk.injEq] at heq
          obtain ⟨rfl, -⟩ := heq
          exact List.Pairwise.nil
        · exact readObjectItemsF_sorted fuel [] _ res rest List.Pairwise.nil heq
      · exact absurd heq (by simp)

set_option maxHeartbeats 1000000 in
theorem escCp_eq_escAmended (c : Nat) : escCp c = escAmended c := by
  unfold escCp escAmended
  by_cases hs : isSurr c
  · have h1 : ¬ c = 0x22 := by unfold isSurr at hs; omega
    have h2 : ¬ c = 0x5C := by unfold isSurr at hs; omega
    have h3 : ¬ c = 0x2F := by unfold isSurr at hs; omega
    have h4 : ¬ c = 0x08 := by unfold isSurr at hs; omega
    have h5 : ¬ c = 0x0C := by unfold isSurr at hs; omega
    have h6 : ¬ c = 0x0A := by unfold isSurr at hs; omega
    have h7 : ¬ c = 0x0D := by unfold isSurr at hs; omega
    have h8 : ¬ c = 0x09 := by unfold isSurr at hs; omega
    rw [if_pos hs, if_neg h1, if_neg h2, if_neg h3, if_neg h4, if_neg h5, if_neg h6,
      if_neg h7, if_neg h8, if_pos (Or.inr hs)]
  · rw [if_neg hs]
    split_ifs <;> first | rfl | (exfalso; tauto)

theorem wfStr_parts {c : Nat} {r : List Nat} (h : WfStr (c :: r)) :
    WfStr r ∧ c < 0x110000 ∧ ∀ b ∈ r.head?, ¬ (isLead c ∧ isTrail b) := by
  obtain ⟨h1, h2⟩ := h
  rw [List.chain'_cons'] at h2
  exact ⟨⟨fun x hx => h1 x (by simp [hx]), h2.2⟩, h1 c (by simp), h2.1⟩

theorem hasLoneSurrogate_utf16 : ∀ l : List Nat, WfStr l →
    hasLoneSurrogate (utf16Encode l) = l.any fun c => decide (isSurr c) := by
  intro l
  induction l with
  | nil => intro _; rfl
  | cons c r ih =>
    intro hwf
    obtain ⟨hwfr, hc, hadj⟩ := wfStr_parts hwf
    by_cases hbig : c < 0x10000
    · have henc : utf16Encode (c :: r) = c :: utf16Encode r := by
        unfold utf16Encode
        simp [hbig]
      rw [henc]
      by_cases hsur : isSurr c
      · by_cases hlead : isLead c
        · cases r with
          | nil =>
            simp only [utf16Encode, List.map_nil, List.flatten_nil]
            simp [hasLoneSurrogate, hsur]
          | cons r1 rs =>
            have hnt : ∀ u2 rest2, utf16Encode (r1 :: rs) = u2 :: rest2 → ¬ isTrail u2 := by
              intro u2 rest2 hu
              by_cases hr1 : r1 < 0x10000
              · have : utf16Encode (r1 :: rs) = r1 :: utf16Encode rs := by
                  unfold utf16Encode
                  simp [hr1]
                rw [this] at hu
                injection hu with h1 h2
                subst h1
                intro ht
                exact hadj _ (by simp) ⟨hlead, ht⟩
              · have hr1b : r1 < 0x110000 := hwfr.1 r1 (by simp)
                have : utf16Encode (r1 :: rs) =
                    (0xD800 + (r1 - 0x10000) / 0x400) ::
                    ((0xDC00 + (r1 - 0x10000) % 0x400) :: utf16Encode rs) := by
                  unfold utf16Encode
                  simp [hr1]
                rw [this] at hu
                injection hu with h1 h2
                unfold isTrail
                omega
            cases hu : utf16Encode (r1 :: rs) with
            | nil =>
              have : r1 < 0x110000 := hwfr.1 r1 (by simp)
              unfold utf16Encode at hu
              by_cases hr1 : r1 < 0x10000 <;> simp [hr1] at hu
            | cons u2 rest2 =>
              have hnt2 := hnt u2 rest2 hu
              simp only [hasLoneSurrogate, hlead, if_pos, hnt2]
              simp [hasLoneSurrogate, hlead, hnt2, hsur]
        · have htrail : isTrail c := by
            unfold isSurr at hsur
            unfold isLead at hlead
            unfold isTrail
            omega
          have hnl : ¬ isLead c := hlead
          cases hu : utf16Encode r with
          | nil => simp [hasLoneSurrogate, hsur]
          | cons u2 rest2 => simp [hasLoneSurrogate, hnl, htrail, hsur]
      · have hns1 : ¬ isLead c := fun hl => hsur (by unfold isLead at hl; unfold isSurr; omega)
        have hns2 : ¬ isTrail c := fun hl => hsur (by unfold isTrail at hl; unfold isSurr; omega)
        cases hu : utf16Encode r with
        | nil =>
          have hr : r.any (fun c => decide (isSurr c)) = false := by
            cases r with
            | nil => rfl
            | cons r1 rs =>
              exfalso
              have : r1 < 0x110000 := hwfr.1 r1 (by simp)
              unfold utf16Encode at hu
              by_cases hr1 : r1 < 0x10000 <;> simp [hr1] at hu
          simp [hasLoneSurrogate, hsur, hr]
        | cons u2 rest2 =>
          rw [show hasLoneSurrogate (c :: u2 :: rest2)
            = hasLoneSurrogate (u2 :: rest2) by
              simp [hasLoneSurrogate, hns1, hns2]]
          rw [← hu, ih hwfr]
          simp [hsur]
    · have hlead1 : isLead (0xD800 + (c - 0x10000) / 0x400) := by
        unfold isLead
        omega
      have htrail1 : isTrail (0xDC00 + (c - 0x10000) % 0x400) := by
        unfold isTrail
        omega
      have henc : utf16Encode (c :: r) = (0xD800 + (c - 0x10000) / 0x400)
          :: ((0xDC00 + (c - 0x10000) % 0x400) :: utf16Encode r) := by
        unfold utf16Encode
        simp [hbig]
      rw [henc]
      have hns : ¬ isSurr c := by unfold isSurr; omega
      rw [show hasLoneSurrogate ((0xD800 + (c - 0x10000) / 0x400)
          :: ((0xDC00 + (c - 0x10000) % 0x400) :: utf16Encode r))
          = hasLoneSurrogate (utf16Encode r) by
        simp [hasLoneSurrogate, hlead1, htrail1]]
      rw [ih hwfr]
      simp [hns]

theorem skipNumber_one (rest : List Nat) (h : okRest rest) :
    skipNumber (0x31 :: rest) = .ok rest := by
  rcases h with rfl | ⟨b, t, rfl, hb | hb | hb⟩ <;> subst_vars
  · rfl
  all_goals
    simp [skipNumber, skipDigits, peekByte, readByte, isDigitByte, List.head?, pure,
      Except.pure, bind, Except.bind]

theorem readNumber_one (rest : List Nat) (h : okRest rest) :
    readNumber (0x31 :: rest) = .ok (4607182418800017408, rest) := by
  have hlen : (0x31 :: rest).length - rest.length = 1 := by simp
  unfold readNumber
  simp only [skipNumber_one rest h, hlen]
  rw [show List.take 1 (0x31 :: rest) = [0x31] from rfl]
  rw [show parseLex [0x31] = 4607182418800017408 from by decide]
  rw [if_pos (by decide)]

theorem sampleValue_repr : ReprP fmtOne sampleValue := by
  refine ReprP.object _ ?_ ?_ ?_
  · intro kv hkv
    simp [sampleValue] at hkv
    rcases hkv with rfl | rfl | rfl <;> decide
  · intro kv hkv
    simp [sampleValue] at hkv
    rcases hkv with rfl | rfl | rfl
    · exact ReprP.array _ (by intro e he; exact absurd he (List.not_mem_nil e))
    · refine ReprP.array _ ?_
      intro e he
      simp at he
      rcases he with rfl | rfl | rfl
      · exact ReprP.string _ (by decide)
      · exact ReprP.number _ (by decide)
          (fun rest hrest => readNumber_one rest hrest)
          ⟨0x31, [], rfl, Or.inr (by decide)⟩
      · exact ReprP.object _ (by intro kv hkv; exact absurd hkv (List.not_mem_nil kv))
          (by intro kv hkv; exact absurd hkv (List.not_mem_nil kv)) List.Pairwise.nil
    · exact ReprP.boolean true
  · decide

/-- Claim C1: for every representable `Value` v (all six variants, finite
numbers, arbitrary well-formed JSON strings including ones holding unpaired
surrogates, empty containers, nested structures), parsing the serialization
of v succeeds and yields v itself: `Value::from_json(serialize(v)) = Ok(v)`.
The float formatter is Rust standard-library code outside this repository;
`ReprP` carries its documented contract (a complete number lexeme that
`read_number` consumes and parses back to the same bit pattern) at exactly
the numbers occurring in v. -/
theorem C1_round_trip (fmtF64 : Nat → List Nat) (v : Value) (h : ReprP fmtF64 v) :
    Value.fromJson (serValue fmtF64 v) = .ok v :=
  valueFromJson_ser h

theorem C1_round_trip_witness : Value.fromJson (serValue fmtOne sampleValue)
    = .ok sampleValue :=
  C1_round_trip fmtOne sampleValue sampleValue_repr

/-- Claim C2 counterexample: the claim says members are emitted in ascending
UTF-16 code-unit order of the key.  For the object parsed from `c2input`, the
key U+10000 has UTF-16 units `[0xD800, 0xDC00]`, lexicographically smaller
than the other key's units `[0xE000]` — so the claim requires it first — yet
the stored (and serialized) member order puts the U+E000 key first, because
the map is ordered by WTF-8 bytes (code point order). -/
theorem C2_counterexample :
    objectFromJson c2input = .ok [([0xE000], .null), ([0x10000], .null)] ∧
    serValue (fun _ => []) (.object [([0xE000], .null), ([0x10000], .null)])
      = [0x7B, 0x22, 0xEE, 0x80, 0x80, 0x22, 0x3A, 0x6E, 0x75, 0x6C, 0x6C, 0x2C,
         0x22, 0xF0, 0x90, 0x80, 0x80, 0x22, 0x3A, 0x6E, 0x75, 0x6C, 0x6C, 0x7D] ∧
    utf16Encode [0x10000] = [0xD800, 0xDC00] ∧
    utf16Encode [0xE000] = [0xE000] ∧
    lexLt [0xD800, 0xDC00] [0xE000] :=
  ⟨by rfl, by rfl, by rfl, by rfl, by decide⟩

/-- Claim C2, amended: every parsed `Object` keeps (and `Display` emits) its
members in strictly ascending order of the key under the lexicographic order
of code point sequences — equivalently, of the keys' WTF-8 byte encodings,
the derived `Ord` of `JsonString` — which differs from UTF-16 code-unit
order exactly when a supplementary-plane key meets a key starting in
U+E000..U+FFFF. -/
theorem C2_keys_sorted (bytes : List Nat) (obj : List (List Nat × Value))
    (h : objectFromJson bytes = .ok obj) :
    List.Pairwise (fun a b => lexLt a.1 b.1) obj := by
  unfold objectFromJson readAll at h
  split at h
  · exact absurd h (by simp)
  · next v rest heq =>
    split at h
    · injection h with h2
      rw [← h2]
      exact readObjectF_sorted heq
    · exact absurd h (by simp)

theorem C2_keys_sorted_witness :
    List.Pairwise (fun (a b : List Nat × Value) => lexLt a.1 b.1)
      [([0x61], Value.null), ([0x62], Value.null)] :=
  C2_keys_sorted
    [0x7B, 0x22, 0x62, 0x22, 0x3A, 0x6E, 0x75, 0x6C, 0x6C, 0x2C,
     0x22, 0x61, 0x22, 0x3A, 0x6E, 0x75, 0x6C, 0x6C, 0x7D]
    [([0x61], Value.null), ([0x62], Value.null)] (by rfl)

/-- Claim C3 counterexample: the claim says `Number` equality and ordering
use the raw bit pattern, making `Number(+0.0)` and `Number(-0.0)` unequal.
The derived `PartialEq`/`PartialOrd` compare the wrapped doubles numerically:
the bit patterns `0` (+0.0) and `2^63` (-0.0) are equal and ordered equal. -/
theorem C3_counterexample :
    f64Eq 0 0x8000000000000000 ∧
    f64CompareOpt 0 0x8000000000000000 = some Ordering.eq :=
  ⟨by decide, by decide⟩

/-- Claim C3, amended: only hashing is defined over the raw bit pattern
(`to_bits` feeds the hasher, so `+0.0` and `-0.0` hash from distinct data);
equality and ordering are the derived numeric comparison of the wrapped
doubles, under which `Number(+0.0)` and `Number(-0.0)` are equal. -/
theorem C3_amended :
    f64Eq 0 0x8000000000000000 ∧
    f64CompareOpt 0 0x8000000000000000 = some Ordering.eq ∧
    numberHashInput 0 ≠ numberHashInput 0x8000000000000000 :=
  ⟨by decide, by decide, by decide⟩

/-- Claim C4 counterexample: parsing `"01"` does not fail with
`InvalidDigit` at the second digit; it fails with `TrailingData`. -/
theorem C4_counterexample :
    numberFromJson [0x30, 0x31] = .error .trailingData ∧
    numberFromJson [0x30, 0x31] ≠ .error (.invalidDigit 0x31) := by
  refine ⟨by rfl, ?_⟩
  intro hcon
  rw [show numberFromJson [0x30, 0x31] = .error .trailingData from rfl] at hcon
  injection hcon with h2
  exact absurd h2 (by decide)

/-- Claim C4, amended: a leading zero followed by further digits is not an
`InvalidDigit` error inside the number lexer; `skip_number` accepts the
single digit `0` and stops, so the remaining digits are unconsumed and a
top-level parse of `"01"` (via `Number::from_json` or `Value::from_json`)
fails with `TrailingData`. -/
theorem C4_amended :
    skipNumber [0x30, 0x31] = .ok [0x31] ∧
    numberFromJson [0x30, 0x31] = .error .trailingData ∧
    Value.fromJson [0x30, 0x31] = .error .trailingData :=
  ⟨by rfl, by rfl, by rfl⟩

/-- Claim C5 counterexample: `Object::from_json(" {} ")` does not succeed —
`read_object` reads the first byte expecting `{` and fails with
`ExpectedLeftBrace` at the space. -/
theorem C5_counterexample :
    objectFromJson [0x20, 0x7B, 0x7D, 0x20] = .error (.expectedLeftBrace 0x20) := by
  rfl

/-- Claim C5, amended: the specialized entry points parse exactly the
required shape with no surrounding whitespace: leading whitespace fails with
the shape's first-byte error (`ExpectedLeftBrace`/`ExpectedLeftBracket`/
`ExpectedDoubleQuote`/`InvalidDigit` at the whitespace byte) and trailing
whitespace fails with `TrailingData`; whitespace inside a container is still
allowed, and only `Value::from_json` permits whitespace around the value. -/
theorem C5_amended :
    objectFromJson [0x7B, 0x7D] = .ok [] ∧
    objectFromJson [0x7B, 0x20, 0x7D] = .ok [] ∧
    objectFromJson [0x20, 0x7B, 0x7D] = .error (.expectedLeftBrace 0x20) ∧
    objectFromJson [0x7B, 0x7D, 0x20] = .error .trailingData ∧
    arrayFromJson [0x20, 0x5B, 0x5D] = .error (.expectedLeftBracket 0x20) ∧
    stringFromJson [0x20, 0x22, 0x22] = .error (.expectedDoubleQuote 0x20) ∧
    stringFromJson [0x22, 0x22, 0x20] = .error .trailingData ∧
    numberFromJson [0x20, 0x31] = .error (.invalidDigit 0x20) ∧
    numberFromJson [0x31, 0x20] = .error .trailingData ∧
    Value.fromJson [0x20, 0x7B, 0x7D, 0x20] = .ok (.object []) :=
  ⟨by rfl, by rfl, by rfl, by rfl, by rfl, by rfl, by rfl, by rfl, by rfl, by rfl⟩

/-- Claim C6 counterexample: the serializer does not emit the forward slash
literally; `Display for JsonString` escapes `/` as `\/`. -/
theorem C6_counterexample :
    displayString [0x2F] = [0x22, 0x5C, 0x2F, 0x22] ∧
    displayString [0x2F] ≠ [0x22, 0x2F, 0x22] :=
  ⟨by rfl, by decide⟩

/-- Claim C6, amended: when serializing a `JsonString`, exactly these code
points receive escapes: the double quote, backslash and forward slash as
`\"`, `\\`, `\/`, the five fixed control mappings `\b \f \n \r \t`, every
other control code point below 0x20 and every unpaired surrogate code unit
as `\u` plus four lowercase hex digits; every other scalar value is emitted
literally. -/
theorem C6_amended (s : List Nat) :
    displayString s = 0x22 :: (s.map escAmended).flatten ++ [0x22] := by
  unfold displayString
  rw [show escCp = escAmended from funext escCp_eq_escAmended]

/-- Claim C7: parsing an object with duplicate keys keeps the last
occurrence: `{"a":1,"a":2}` yields an object of length 1 mapping `"a"` to
the number 2 (bit pattern 4611686018427387904 = `2.0`). -/
theorem C7_duplicate_keys :
    Value.fromJson
        [0x7B, 0x22, 0x61, 0x22, 0x3A, 0x31, 0x2C, 0x22, 0x61, 0x22, 0x3A, 0x32, 0x7D]
      = .ok (.object [([0x61], .number 4611686018427387904)]) ∧
    parseLex [0x32] = 4611686018427387904 ∧
    [([0x61], Value.number 4611686018427387904)].length = 1 :=
  ⟨by rfl, by decide, by rfl⟩

/-- Claim C8: `read_all` requires the cursor exhausted after the single
value (which consumes surrounding whitespace), else `TrailingData`; in
particular `parse("1 2")` fails with `TrailingData`. -/
theorem C8_trailing_data :
    Value.fromJson [0x31, 0x20, 0x32] = .error .trailingData ∧
    (∀ bytes v rest, readValueF (fuelFor bytes) bytes = .ok (v, rest) → rest ≠ [] →
      Value.fromJson bytes = .error .trailingData) := by
  refine ⟨by rfl, ?_⟩
  intro bytes v rest h hne
  unfold Value.fromJson readAll
  simp only [h]
  rw [if_neg hne]

theorem C8_trailing_data_witness :
    Value.fromJson [0x31, 0x20, 0x32] = .error .trailingData :=
  C8_trailing_data.2 [0x31, 0x20, 0x32] (.number 4607182418800017408) [0x32]
    (by rfl) (by decide)

/-- Claim C9: `JsonString::into_string` fails exactly when the string's
UTF-16 code-unit sequence contains a lone surrogate, and on failure it
returns the original string unchanged. -/
theorem C9_into_string (s : List Nat) (h : WfStr s) :
    intoString s =
      if hasLoneSurrogate (utf16Encode s) then .error s else .ok s := by
  unfold intoString
  rw [hasLoneSurrogate_utf16 s h]

theorem C9_into_string_witness :
    intoString [0xD800] =
      if hasLoneSurrogate (utf16Encode [0xD800]) then .error [0xD800] else .ok [0xD800] :=
  C9_into_string [0xD800] (by decide)

/-- Claim C10: every `Number` reachable through the public interface wraps a
finite double — `read_number` checks `is_finite` and errors `InfiniteFloat`,
and `TryFrom<f64>`/`TryFrom<f32>` reject non-finite inputs — `partial_cmp`
is `some` on every pair of non-NaN doubles, so the `unwrap` in `Ord::cmp`
can never panic on library-produced numbers, and the `Eq` instance is
lawful on them: with NaN excluded, `f64 ==` is reflexive (the law NaN
breaks), and it is symmetric and transitive outright, so it is an
equivalence relation on the reachable bit patterns. -/
theorem C10_finiteness :
    (∀ bytes bits rest, readNumber bytes = .ok (bits, rest) → isFiniteBits bits) ∧
    (∀ b bits, numberTryFromF64 b = .ok bits → isFiniteBits bits) ∧
    (∀ b bits, numberTryFromF32 b = .ok bits → isFiniteBits bits) ∧
    (∀ b1 b2, ¬ isNaNBits b1 → ¬ isNaNBits b2 → (f64CompareOpt b1 b2).isSome) ∧
    (∀ b, isFiniteBits b → ¬ isNaNBits b) ∧
    (∀ b, ¬ isNaNBits b → f64Eq b b) ∧
    (∀ b1 b2, f64Eq b1 b2 → f64Eq b2 b1) ∧
    (∀ b1 b2 b3, f64Eq b1 b2 → f64Eq b2 b3 → f64Eq b1 b3) := by
  refine ⟨?_, ?_, ?_, ?_, ?_, ?_, ?_, ?_⟩
  · intro bytes bits rest h
    unfold readNumber at h
    split at h
    · exact absurd h (by simp)
    · dsimp only at h
      split at h
      · next hfin =>
        simp only [Except.ok.injEq, Prod.mk.injEq] at h
        obtain ⟨rfl, -⟩ := h
        exact hfin
      · exact absurd h (by simp)
  · intro b bits h
    unfold numberTryFromF64 at h
    split at h
    · next hfin =>
      injection h with h2
      rw [← h2]
      exact hfin
    · exact absurd h (by simp)
  · intro b bits h
    unfold numberTryFromF32 numberTryFromF64 at h
    split at h
    · next hfin =>
      injection h with h2
      rw [← h2]
      exact hfin
    · exact absurd h (by simp)
  · intro b1 b2 h1 h2
    unfold f64CompareOpt
    rw [if_neg (by tauto)]
    rfl
  · intro b h
    unfold isFiniteBits at h
    rintro ⟨h1, -⟩
    exact h h1
  · intro b h
    unfold f64Eq f64CompareOpt
    rw [if_neg (by tauto)]
    simp only [Option.some.injEq, compare_eq_iff_eq]
  · intro b1 b2 h
    unfold f64Eq f64CompareOpt at h ⊢
    by_cases hn : isNaNBits b1 ∨ isNaNBits b2
    · rw [if_pos hn] at h
      exact absurd h (by simp)
    · rw [if_neg hn] at h
      rw [if_neg (by tauto)]
      simp only [Option.some.injEq, compare_eq_iff_eq] at h ⊢
      exact h.symm
  · intro b1 b2 b3 h1 h2
    unfold f64Eq f64CompareOpt at h1 h2 ⊢
    by_cases hn1 : isNaNBits b1 ∨ isNaNBits b2
    · rw [if_pos hn1] at h1
      exact absurd h1 (by simp)
    · by_cases hn2 : isNaNBits b2 ∨ isNaNBits b3
      · rw [if_pos hn2] at h2
        exact absurd h2 (by simp)
      · rw [if_neg hn1] at h1
        rw [if_neg hn2] at h2
        rw [if_neg (by tauto)]
        simp only [Option.some.injEq, compare_eq_iff_eq] at h1 h2 ⊢
        exact h1.trans h2

theorem C10_finiteness_witness :
    isFiniteBits 4607182418800017408 ∧
    (f64CompareOpt 0 4607182418800017408).isSome ∧
    f64Eq 4607182418800017408 4607182418800017408 := by
  refine ⟨?_, ?_, ?_⟩
  · exact C10_finiteness.2.1 4607182418800017408 4607182418800017408 (by rfl)
  · exact C10_finiteness.2.2.2.1 0 4607182418800017408 (by decide) (by decide)
  · exact C10_finiteness.2.2.2.2.2.1 4607182418800017408 (by decide)
